import Mathlib

/-! # gopymarshal: the decoder of `unmarshal.go`

A shallow embedding of the recursive-descent decoder of Python's marshal
format (`Unmarshal`, `unmarshal`, `readInt32`, `readFloat64`, `readString`,
`readList`, `readDict`) and theorems about it.

Conventions of the embedding:
* a byte is a natural number (`Byte`); the byte source holds the bytes that
  are still unread;
* an `int32` is an `Int` in `[-2^31, 2^31)`, a `float64` is its IEEE-754 bit
  pattern (a `Nat` below `2^64`), a Go `string` is its list of bytes;
* a Go function returning `(ret, retErr)` returns `Outcome.ret ret retErr r`
  where `r` is the source after the call; a run-time panic is
  `Outcome.panic`;
* the mutually recursive `unmarshal` / `readList` / `readDict` take a fuel
  argument that bounds the number of nested calls and loop iterations;
  `Outcome.outOfFuel` marks an exhausted bound and is never a result of the
  Go code;
* `int` is 64 bits wide and allocation of a buffer of non-negative length
  succeeds.
-/

namespace Gopymarshal

/-- A byte of the wire format. -/
abbrev Byte := Nat

/-- Wire tag `'N'` (None). -/
def CODE_NONE : Byte := 0x4e
/-- Wire tag `'i'` (integer). -/
def CODE_INT : Byte := 0x69
/-- Wire tag `'c'` (integer2). -/
def CODE_INT2 : Byte := 0x63
/-- Wire tag `'g'` (float). -/
def CODE_FLOAT : Byte := 0x67
/-- Wire tag `'s'` (string). -/
def CODE_STRING : Byte := 0x73
/-- Wire tag `'u'` (unicode string). -/
def CODE_UNICODE : Byte := 0x75
/-- Wire tag `'t'` (tstring). -/
def CODE_TSTRING : Byte := 0x74
/-- Wire tag `'('` (tuple). -/
def CODE_TUPLE : Byte := 0x28
/-- Wire tag `'['` (list). -/
def CODE_LIST : Byte := 0x5b
/-- Wire tag `'{'` (dict). -/
def CODE_DICT : Byte := 0x7b
/-- Wire tag `'0'`, the terminator of a dict. -/
def CODE_STOP : Byte := 0x30

/-- The errors the decoder can return: the two package errors and the two
errors of the byte source (`io.EOF`, `io.ErrUnexpectedEOF`). -/
inductive Error where
  | ERR_PARSE
  | ERR_UNKNOWN_CODE
  | EOF
  | ErrUnexpectedEOF
  deriving DecidableEq, Repr

/-- The run-time panics the decoder can raise. -/
inductive Panic where
  /-- `make` called with a negative length: "makeslice: len out of range". -/
  | makesliceLen
  /-- A map assignment whose key holds a slice or a map:
  "runtime error: hash of unhashable type". -/
  | unhashable
  deriving DecidableEq, Repr

/-- The dynamic values `unmarshal` returns in its `interface{}` result. -/
inductive Value where
  /-- The nil interface. -/
  | nil : Value
  /-- An `int32`. -/
  | int32 (v : Int) : Value
  /-- A `float64`, by its bit pattern. -/
  | float64 (bits : Nat) : Value
  /-- A `string`, by its bytes. -/
  | str (bytes : List Byte) : Value
  /-- A `[]interface{}`. -/
  | list (elems : List Value) : Value
  /-- A `map[interface{}]interface{}`, by its entries (first insertion first). -/
  | dict (entries : List (Value × Value)) : Value
  deriving Repr

/-- Modelled from the spec: the byte source, an external collaborator of which
the repository declares only the interface `ByteReader`. It is an in-memory
source: the list of the bytes not yet read. -/
abbrev Reader := List Byte

/-- What a call does: it returns `(ret, retErr)` and leaves the source `r`,
or it panics; `outOfFuel` is the embedding's exhausted recursion bound. -/
inductive Outcome (α : Type) where
  | ret (val : α) (err : Option Error) (r : Reader) : Outcome α
  | panic (p : Panic) : Outcome α
  | outOfFuel : Outcome α
  deriving Repr

/-- Modelled from the spec: `ReadByte` of the byte source, "reads exactly one
byte or fails": the byte read (0 on failure), the error, the source after. -/
def ReadByte (r : Reader) : Byte × Option Error × Reader :=
  match r with
  | [] => (0, some Error.EOF, [])
  | b :: rest => (b, none, rest)

/-- Modelled from the spec: `Read` of the byte source into a zeroed buffer of
`n` bytes, "fills as much of the caller buffer as available": the buffer
after the call, the number of bytes read, the error, the source after. -/
def Read (r : Reader) (n : Nat) : List Byte × Nat × Option Error × Reader :=
  if n ≠ 0 ∧ r = [] then (List.replicate n 0, 0, some Error.EOF, [])
  else (r.take n ++ List.replicate (n - r.length) 0, min n r.length, none, r.drop n)

/-- The value of `binary.LittleEndian.Uint32` on four bytes. -/
def leUint32 (b0 b1 b2 b3 : Byte) : Nat :=
  (b0 % 256) + 256 * (b1 % 256) + 65536 * (b2 % 256) + 16777216 * (b3 % 256)

/-- The conversion `int32(u)` of an unsigned 32-bit value (two's complement). -/
def toInt32 (u : Nat) : Int :=
  if u % 4294967296 < 2147483648 then (u % 4294967296 : Nat)
  else ((u % 4294967296 : Nat) : Int) - 4294967296

/-- The value of `binary.LittleEndian.Uint64` on a buffer of eight bytes. -/
def leUint64 (buf : List Byte) : Nat :=
  (buf.take 8).foldr (fun b acc => b % 256 + 256 * acc) 0

/-- `binary.Read(r, binary.LittleEndian, &x)` for an `int32` `x`: `io.ReadFull`
of four bytes, then the little-endian decoding. With no byte left the error
is `io.EOF`, with one to three `io.ErrUnexpectedEOF`; `x` is then unchanged
(it is zero at every call site). -/
def binaryReadInt32 (r : Reader) : Int × Option Error × Reader :=
  match r with
  | b0 :: b1 :: b2 :: b3 :: rest => (toInt32 (leUint32 b0 b1 b2 b3), none, rest)
  | [] => (0, some Error.EOF, [])
  | _ => (0, some Error.ErrUnexpectedEOF, [])

/-- `readInt32`. -/
def readInt32 (r : Reader) : Outcome Int :=
  match binaryReadInt32 r with
  | (tmp, none, r1) => Outcome.ret tmp none r1
  | (_, some e, r1) => Outcome.ret 0 (some e) r1

/-- `readFloat64`: the result is the bit pattern given to
`math.Float64frombits`. -/
def readFloat64 (r : Reader) : Outcome Nat :=
  match Read r 8 with
  | (tmp, num, err, r1) =>
    if err = none ∧ num = 8 then Outcome.ret (leUint64 tmp) none r1
    else Outcome.ret 0 (some Error.ERR_PARSE) r1

/-- `readString`: `make([]byte, strLen)` panics on a negative length; the
results of `r.Read(buf)` are discarded. -/
def readString (r : Reader) : Outcome (List Byte) :=
  match binaryReadInt32 r with
  | (_, some err, r1) => Outcome.ret [] (some err) r1
  | (strLen, none, r1) =>
    if strLen < 0 then Outcome.panic Panic.makesliceLen
    else
      match Read r1 strLen.toNat with
      | (buf, _, _, r2) => Outcome.ret buf none r2

/-- Whether a `float64` bit pattern is a NaN. -/
def isNaN (bits : Nat) : Bool :=
  (bits / 4503599627370496) % 2048 == 2047 && bits % 4503599627370496 != 0

/-- Go's `==` on two `float64` values given by their bit patterns. -/
def float64Eq (a b : Nat) : Bool :=
  !isNaN a && !isNaN b &&
    (a % 18446744073709551616 == b % 18446744073709551616 ||
      (a % 9223372036854775808 == 0 && b % 9223372036854775808 == 0))

/-- Whether a value may be a map key: its dynamic type is not a slice or a
map. -/
def hashable : Value → Bool
  | Value.list _ => false
  | Value.dict _ => false
  | _ => true

/-- Go's `==` on two hashable interface values: same dynamic type and equal
values. -/
def keyEq : Value → Value → Bool
  | Value.nil, Value.nil => true
  | Value.int32 a, Value.int32 b => a == b
  | Value.float64 a, Value.float64 b => float64Eq a b
  | Value.str a, Value.str b => a == b
  | _, _ => false

/-- The entries of a map after `m[key] = val` for a hashable key: the entry
of an equal key is overwritten (key and value), else an entry is added. -/
def mapAssign (m : List (Value × Value)) (key val : Value) : List (Value × Value) :=
  match m with
  | [] => [(key, val)]
  | (k, v) :: rest =>
    if keyEq k key then (key, val) :: rest else (k, v) :: mapAssign rest key val

mutual

/-- `unmarshal`: the dispatch on the tag byte. -/
def unmarshal (fuel : Nat) (code : Byte) (r : Reader) : Outcome Value :=
  match fuel with
  | 0 => Outcome.outOfFuel
  | fuel + 1 =>
    if code = CODE_NONE then Outcome.ret Value.nil none r
    else if code = CODE_INT ∨ code = CODE_INT2 then
      match readInt32 r with
      | Outcome.ret v e r1 => Outcome.ret (Value.int32 v) e r1
      | Outcome.panic p => Outcome.panic p
      | Outcome.outOfFuel => Outcome.outOfFuel
    else if code = CODE_FLOAT then
      match readFloat64 r with
      | Outcome.ret v e r1 => Outcome.ret (Value.float64 v) e r1
      | Outcome.panic p => Outcome.panic p
      | Outcome.outOfFuel => Outcome.outOfFuel
    else if code = CODE_STRING ∨ code = CODE_UNICODE ∨ code = CODE_TSTRING then
      match readString r with
      | Outcome.ret v e r1 => Outcome.ret (Value.str v) e r1
      | Outcome.panic p => Outcome.panic p
      | Outcome.outOfFuel => Outcome.outOfFuel
    else if code = CODE_TUPLE ∨ code = CODE_LIST then
      match readList fuel r with
      | Outcome.ret v e r1 => Outcome.ret (Value.list v) e r1
      | Outcome.panic p => Outcome.panic p
      | Outcome.outOfFuel => Outcome.outOfFuel
    else if code = CODE_DICT then
      match readDict fuel r with
      | Outcome.ret v e r1 => Outcome.ret (Value.dict v) e r1
      | Outcome.panic p => Outcome.panic p
      | Outcome.outOfFuel => Outcome.outOfFuel
    else Outcome.ret Value.nil (some Error.ERR_UNKNOWN_CODE) r

/-- `readList`: the count, the allocation `make([]interface{}, int(listSize))`
of `listSize` nil entries (a panic on a negative count), then the loop. -/
def readList (fuel : Nat) (r : Reader) : Outcome (List Value) :=
  match fuel with
  | 0 => Outcome.outOfFuel
  | fuel + 1 =>
    match binaryReadInt32 r with
    | (_, some err, r1) => Outcome.ret [] (some err) r1
    | (listSize, none, r1) =>
      if listSize < 0 then Outcome.panic Panic.makesliceLen
      else readListLoop fuel listSize 0 (List.replicate listSize.toNat Value.nil) r1

/-- The loop of `readList`, entered with the loop variable `idx`, the slice
`ret` built so far and the source `r`. -/
def readListLoop (fuel : Nat) (listSize : Int) (idx : Nat) (ret : List Value) (r : Reader) :
    Outcome (List Value) :=
  match fuel with
  | 0 => Outcome.outOfFuel
  | fuel + 1 =>
    if (idx : Int) < listSize then
      match ReadByte r with
      | (_, some _, r1) => Outcome.ret ret none r1
      | (code, none, r1) =>
        match unmarshal fuel code r1 with
        | Outcome.ret _ (some err) r2 => Outcome.ret ret (some err) r2
        | Outcome.ret val none r2 => readListLoop fuel listSize (idx + 1) (ret ++ [val]) r2
        | Outcome.panic p => Outcome.panic p
        | Outcome.outOfFuel => Outcome.outOfFuel
    else Outcome.ret ret none r

/-- `readDict`: the allocation of the empty map, then the loop. -/
def readDict (fuel : Nat) (r : Reader) : Outcome (List (Value × Value)) :=
  match fuel with
  | 0 => Outcome.outOfFuel
  | fuel + 1 => readDictLoop fuel [] r

/-- The loop of `readDict`, entered with the map `ret` built so far and the
source `r`. -/
def readDictLoop (fuel : Nat) (ret : List (Value × Value)) (r : Reader) :
    Outcome (List (Value × Value)) :=
  match fuel with
  | 0 => Outcome.outOfFuel
  | fuel + 1 =>
    match ReadByte r with
    | (_, some _, r1) => Outcome.ret ret none r1
    | (code, none, r1) =>
      if code = CODE_STOP then Outcome.ret ret none r1
      else
        match unmarshal fuel code r1 with
        | Outcome.ret _ (some err) r2 => Outcome.ret ret (some err) r2
        | Outcome.panic p => Outcome.panic p
        | Outcome.outOfFuel => Outcome.outOfFuel
        | Outcome.ret key none r2 =>
          match ReadByte r2 with
          | (_, some _, r3) => Outcome.ret ret none r3
          | (code2, none, r3) =>
            match unmarshal fuel code2 r3 with
            | Outcome.ret _ (some err) r4 => Outcome.ret ret (some err) r4
            | Outcome.panic p => Outcome.panic p
            | Outcome.outOfFuel => Outcome.outOfFuel
            | Outcome.ret val none r4 =>
              if hashable key then readDictLoop fuel (mapAssign ret key val) r4
              else Outcome.panic Panic.unhashable

end

/-- `Unmarshal`: the entry point. -/
def Unmarshal (fuel : Nat) (r : Reader) : Outcome Value :=
  match ReadByte r with
  | (_, some err, r1) => Outcome.ret Value.nil (some err) r1
  | (code, none, r1) => unmarshal fuel code r1

/-! ## The reference encoding and well-formed inputs

The repository has no encoder. The reference encoding below follows the wire
format as the specification words it: a tag byte, little-endian payloads,
count-prefixed sequences and mappings terminated by the tag `'0'`. -/

/-- The four little-endian bytes of a 32-bit integer (two's complement). -/
def putInt32 (v : Int) : List Byte :=
  let u := (v % 4294967296).toNat
  [u % 256, u / 256 % 256, u / 65536 % 256, u / 16777216 % 256]

/-- The eight little-endian bytes of a 64-bit pattern. -/
def putUint64 (b : Nat) : List Byte :=
  [b % 256, b / 256 % 256, b / 65536 % 256, b / 16777216 % 256,
   b / 4294967296 % 256, b / 1099511627776 % 256, b / 281474976710656 % 256,
   b / 72057594037927936 % 256]

mutual

/-- The reference encoding of a value tree, in the specification's words:
`N` for null, `i` and four bytes for an integer, `g` and eight bytes for a
float, `s`, the length and the bytes for a byte string, `[`, the count and
the elements for a sequence, `{`, the keys and values and the tag `0` for a
mapping. -/
def refEncode : Value → List Byte
  | Value.nil => [CODE_NONE]
  | Value.int32 v => CODE_INT :: putInt32 v
  | Value.float64 b => CODE_FLOAT :: putUint64 b
  | Value.str s => CODE_STRING :: (putInt32 s.length ++ s)
  | Value.list xs => CODE_LIST :: (putInt32 xs.length ++ refEncodeList xs)
  | Value.dict ps => CODE_DICT :: (refEncodePairs ps ++ [CODE_STOP])

/-- The reference encodings of the elements of a sequence, one after the
other. -/
def refEncodeList : List Value → List Byte
  | [] => []
  | x :: xs => refEncode x ++ refEncodeList xs

/-- The reference encodings of the pairs of a mapping: key, value, key,
value, and so on. -/
def refEncodePairs : List (Value × Value) → List Byte
  | [] => []
  | (k, v) :: ps => refEncode k ++ (refEncode v ++ refEncodePairs ps)

end

/-- The keys of a list of pairs are pairwise different under Go's `==`: no
key equals a later one. -/
def distinctKeys : List (Value × Value) → Bool
  | [] => true
  | (k, _) :: ps => ps.all (fun e => !keyEq k e.1) && distinctKeys ps

mutual

/-- The value trees whose encoding fits the wire format and that a Go value
of the decoder can hold as they are: integers in the `int32` range, float
patterns below `2^64`, strings shorter than `2^31` bytes, sequences empty,
mappings with hashable keys that are pairwise different under Go's `==`. -/
def canonical : Value → Bool
  | Value.nil => true
  | Value.int32 v => decide (-2147483648 ≤ v ∧ v < 2147483648)
  | Value.float64 b => decide (b < 18446744073709551616)
  | Value.str s => decide (s.length < 2147483648)
  | Value.list xs => xs.isEmpty
  | Value.dict ps => canonicalPairs ps && distinctKeys ps

/-- Every key of the pairs is hashable and canonical, every value canonical. -/
def canonicalPairs : List (Value × Value) → Bool
  | [] => true
  | (k, v) :: ps => hashable k && canonical k && canonical v && canonicalPairs ps

end

/-- The bytes `seg` are a well-formed encoding of the value `v`: whatever
bytes `t` follow them, `Unmarshal` returns `v` with a nil error and leaves
exactly `t` unread (for every large enough recursion bound). -/
def WellFormed (seg : List Byte) (v : Value) : Prop :=
  ∃ n, ∀ fuel, n ≤ fuel → ∀ t, Unmarshal fuel (seg ++ t) = Outcome.ret v none t

/-- One key/value pair of a mapping on the wire: the bytes of the key, the
value they decode to, the bytes of the value, the value they decode to. -/
structure WirePair where
  keyBytes : List Byte
  key : Value
  valBytes : List Byte
  val : Value

/-- The bytes of the pairs of a mapping on the wire, in wire order. -/
def wireBytes : List WirePair → List Byte
  | [] => []
  | p :: ps => p.keyBytes ++ (p.valBytes ++ wireBytes ps)

/-- The (key, value) pairs on the wire, in wire order. -/
def wireEntries : List WirePair → List (Value × Value)
  | [] => []
  | p :: ps => (p.key, p.val) :: wireEntries ps

/-- The map after the assignments `m[key] = val` of the wire pairs, in wire
order, starting from the map `m`. -/
def assignAll (m : List (Value × Value)) : List WirePair → List (Value × Value)
  | [] => m
  | p :: ps => assignAll (mapAssign m p.key p.val) ps

/-- The pairs of a mapping as wire pairs under the reference encoding. -/
def toWire : List (Value × Value) → List WirePair
  | [] => []
  | (k, v) :: ps => WirePair.mk (refEncode k) k (refEncode v) v :: toWire ps

/-! ## Elements on the wire, encodable values, scalar keys and call frames -/

/-- The bytes of the elements of a sequence on the wire, each given with the
value it decodes to, in wire order. -/
def elemBytes : List (List Byte × Value) → List Byte
  | [] => []
  | e :: es => e.1 ++ elemBytes es

mutual

/-- The value trees whose reference encoding has the shape the wire format
gives it: every string and every sequence is shorter than `2^31`, so that
its length fits the four-byte signed length field. -/
def encodable : Value → Bool
  | Value.nil => true
  | Value.int32 _ => true
  | Value.float64 _ => true
  | Value.str s => decide (s.length < 2147483648)
  | Value.list xs => decide (xs.length < 2147483648) && encodableList xs
  | Value.dict ps => encodablePairs ps

/-- Every element is encodable. -/
def encodableList : List Value → Bool
  | [] => true
  | x :: xs => encodable x && encodableList xs

/-- Every key and every value of the pairs is encodable. -/
def encodablePairs : List (Value × Value) → Bool
  | [] => true
  | (k, v) :: ps => encodable k && encodable v && encodablePairs ps

end

/-- The bytes `seg` make `Unmarshal` panic at a map assignment, whatever
bytes follow them (for every large enough recursion bound). -/
def Panics (seg : List Byte) : Prop :=
  ∃ n, ∀ fuel, n ≤ fuel → ∀ t, Unmarshal fuel (seg ++ t) = Outcome.panic Panic.unhashable

/-- The scalar keys: null, integers and strings. -/
def scalarKey : Value → Bool
  | Value.nil => true
  | Value.int32 _ => true
  | Value.str _ => true
  | _ => false

/-- The number of distinct keys in a list of keys: the keys that equal,
under Go's `==`, neither a key of `seen` nor an earlier key of the list. -/
def countDistinctKeys (seen : List Value) : List Value → Nat
  | [] => 0
  | k :: ks =>
    if seen.any (fun s => keyEq s k) then countDistinctKeys seen ks
    else 1 + countDistinctKeys (seen ++ [k]) ks

/-- A call in progress: one of the five mutually recursive functions with
its arguments. -/
inductive Frame where
  | un (fuel : Nat) (code : Byte) (r : Reader) : Frame
  | list (fuel : Nat) (r : Reader) : Frame
  | listLoop (fuel : Nat) (listSize : Int) (idx : Nat) (ret : List Value) (r : Reader) : Frame
  | dict (fuel : Nat) (r : Reader) : Frame
  | dictLoop (fuel : Nat) (ret : List (Value × Value)) (r : Reader) : Frame

/-- The error a call returns together with the source it leaves, when it
returns a non-nil error. -/
def Frame.failure : Frame → Option (Error × Reader)
  | Frame.un f c r =>
    match unmarshal f c r with
    | Outcome.ret _ (some e) r1 => some (e, r1)
    | _ => none
  | Frame.list f r =>
    match readList f r with
    | Outcome.ret _ (some e) r1 => some (e, r1)
    | _ => none
  | Frame.listLoop f n i acc r =>
    match readListLoop f n i acc r with
    | Outcome.ret _ (some e) r1 => some (e, r1)
    | _ => none
  | Frame.dict f r =>
    match readDict f r with
    | Outcome.ret _ (some e) r1 => some (e, r1)
    | _ => none
  | Frame.dictLoop f acc r =>
    match readDictLoop f acc r with
    | Outcome.ret _ (some e) r1 => some (e, r1)
    | _ => none

/-- The calls a call makes itself, read off the five functions: `unmarshal`
calls `readList` or `readDict`; these enter their loop; an iteration of the
loop of `readList` that has read a tag byte calls `unmarshal` on the element
and, when the element decodes without error, goes on with the next
iteration; an iteration of the loop of `readDict` that has read a tag other
than `'0'` calls `unmarshal` on the key, then, when the key decodes without
error and a second tag byte is read, `unmarshal` on the value, and, when the
value decodes without error and the key is hashable, goes on with the next
iteration. -/
inductive Calls : Frame → Frame → Prop
  | un_list (f : Nat) (c : Byte) (r : Reader) (hc : c = CODE_TUPLE ∨ c = CODE_LIST) :
      Calls (Frame.un (f + 1) c r) (Frame.list f r)
  | un_dict (f : Nat) (c : Byte) (r : Reader) (hc : c = CODE_DICT) :
      Calls (Frame.un (f + 1) c r) (Frame.dict f r)
  | list_loop (f : Nat) (r r1 : Reader) (n : Int) (hb : binaryReadInt32 r = (n, none, r1))
      (hn : ¬ n < 0) :
      Calls (Frame.list (f + 1) r)
        (Frame.listLoop f n 0 (List.replicate n.toNat Value.nil) r1)
  | listLoop_elem (f : Nat) (n : Int) (i : Nat) (acc : List Value) (r r1 : Reader) (c : Byte)
      (hi : (i : Int) < n) (hb : ReadByte r = (c, none, r1)) :
      Calls (Frame.listLoop (f + 1) n i acc r) (Frame.un f c r1)
  | listLoop_next (f : Nat) (n : Int) (i : Nat) (acc : List Value) (r r1 r2 : Reader)
      (c : Byte) (val : Value) (hi : (i : Int) < n) (hb : ReadByte r = (c, none, r1))
      (hu : unmarshal f c r1 = Outcome.ret val none r2) :
      Calls (Frame.listLoop (f + 1) n i acc r) (Frame.listLoop f n (i + 1) (acc ++ [val]) r2)
  | dict_loop (f : Nat) (r : Reader) :
      Calls (Frame.dict (f + 1) r) (Frame.dictLoop f [] r)
  | dictLoop_key (f : Nat) (acc : List (Value × Value)) (r r1 : Reader) (c : Byte)
      (hb : ReadByte r = (c, none, r1)) (hc : c ≠ CODE_STOP) :
      Calls (Frame.dictLoop (f + 1) acc r) (Frame.un f c r1)
  | dictLoop_val (f : Nat) (acc : List (Value × Value)) (r r1 r2 r3 : Reader) (c c2 : Byte)
      (key : Value) (hb : ReadByte r = (c, none, r1)) (hc : c ≠ CODE_STOP)
      (hk : unmarshal f c r1 = Outcome.ret key none r2) (hb2 : ReadByte r2 = (c2, none, r3)) :
      Calls (Frame.dictLoop (f + 1) acc r) (Frame.un f c2 r3)
  | dictLoop_next (f : Nat) (acc : List (Value × Value)) (r r1 r2 r3 r4 : Reader)
      (c c2 : Byte) (key val : Value) (hb : ReadByte r = (c, none, r1)) (hc : c ≠ CODE_STOP)
      (hk : unmarshal f c r1 = Outcome.ret key none r2) (hb2 : ReadByte r2 = (c2, none, r3))
      (hv : unmarshal f c2 r3 = Outcome.ret val none r4) (hh : hashable key = true) :
      Calls (Frame.dictLoop (f + 1) acc r) (Frame.dictLoop f (mapAssign acc key val) r4)


/-! ## The recursion bound

A result reached within a bound is the result for every larger bound, so
the bound never changes what the decoder returns. -/

/-- One more unit of fuel does not change a result that is not `outOfFuel`,
for the five mutually recursive functions at once. -/
theorem step_mono (f : Nat) :
    (∀ c r, unmarshal f c r ≠ Outcome.outOfFuel → unmarshal (f + 1) c r = unmarshal f c r) ∧
    (∀ r, readList f r ≠ Outcome.outOfFuel → readList (f + 1) r = readList f r) ∧
    (∀ n i acc r, readListLoop f n i acc r ≠ Outcome.outOfFuel →
      readListLoop (f + 1) n i acc r = readListLoop f n i acc r) ∧
    (∀ r, readDict f r ≠ Outcome.outOfFuel → readDict (f + 1) r = readDict f r) ∧
    (∀ acc r, readDictLoop f acc r ≠ Outcome.outOfFuel →
      readDictLoop (f + 1) acc r = readDictLoop f acc r) := by
  induction f with
  | zero =>
    refine ⟨?_, ?_, ?_, ?_, ?_⟩ <;> intros <;>
      simp_all [unmarshal, readList, readListLoop, readDict, readDictLoop]
  | succ f ih =>
    obtain ⟨ihU, ihL, ihLL, ihD, ihDL⟩ := ih
    refine ⟨?_, ?_, ?_, ?_, ?_⟩
    · intro c r h
      rw [unmarshal] at h
      rw [unmarshal, unmarshal]
      split_ifs at h ⊢ <;> try rfl
      · cases hr : readList f r <;> simp [hr] at h <;> rw [ihL r (by simp [hr]), hr]
      · cases hr : readDict f r <;> simp [hr] at h <;> rw [ihD r (by simp [hr]), hr]
    · intro r h
      rw [readList] at h
      rw [readList, readList]
      rcases hb : binaryReadInt32 r with ⟨n, _ | e, r1⟩
      · simp only [hb] at h ⊢
        split_ifs at h ⊢
        · rfl
        · exact ihLL _ _ _ _ h
      · simp only [hb]
    · intro n i acc r h
      rw [readListLoop] at h
      rw [readListLoop, readListLoop]
      split_ifs at h ⊢
      · rcases hb : ReadByte r with ⟨c, _ | e, r1⟩
        · simp only [hb] at h ⊢
          cases hu : unmarshal f c r1 with
          | outOfFuel => simp [hu] at h
          | panic p => rw [ihU c r1 (by simp [hu]), hu]
          | ret v e r2 =>
            rw [ihU c r1 (by simp [hu])]
            cases e with
            | some e => simp [hu]
            | none =>
              simp only [hu] at h ⊢
              exact ihLL _ _ _ _ h
        · simp only [hb]
      · rfl
    · intro r h
      rw [readDict] at h
      rw [readDict, readDict]
      exact ihDL _ _ h
    · intro acc r h
      rw [readDictLoop] at h
      rw [readDictLoop, readDictLoop]
      rcases hb : ReadByte r with ⟨c, _ | e, r1⟩
      · simp only [hb] at h ⊢
        split_ifs at h ⊢
        · rfl
        · cases hu : unmarshal f c r1 with
          | outOfFuel => simp [hu] at h
          | panic p => rw [ihU c r1 (by simp [hu]), hu]
          | ret k e r2 =>
            rw [ihU c r1 (by simp [hu])]
            cases e with
            | some e => simp [hu]
            | none =>
              simp only [hu] at h ⊢
              rcases hb2 : ReadByte r2 with ⟨c2, _ | e2, r3⟩
              · simp only [hb2] at h ⊢
                cases hu2 : unmarshal f c2 r3 with
                | outOfFuel => simp [hu2] at h
                | panic p => rw [ihU c2 r3 (by simp [hu2]), hu2]
                | ret v e r4 =>
                  rw [ihU c2 r3 (by simp [hu2])]
                  cases e with
                  | some e => simp [hu2]
                  | none =>
                    simp only [hu2] at h ⊢
                    split_ifs at h ⊢
                    · exact ihDL _ _ h
                    · rfl
              · simp only [hb2]
      · simp only [hb]

/-- A result of `unmarshal` that is not `outOfFuel` stays the same under a
larger bound. -/
theorem unmarshal_mono {f g : Nat} (hfg : f ≤ g) (c : Byte) (r : Reader)
    (h : unmarshal f c r ≠ Outcome.outOfFuel) : unmarshal g c r = unmarshal f c r := by
  induction hfg with
  | refl => rfl
  | step _ ih => rw [(step_mono _).1 c r (by rw [ih]; exact h), ih]

/-- A result of the loop of `readList` that is not `outOfFuel` stays the same
under a larger bound. -/
theorem readListLoop_mono {f g : Nat} (hfg : f ≤ g) (n : Int) (i : Nat) (acc : List Value)
    (r : Reader) (h : readListLoop f n i acc r ≠ Outcome.outOfFuel) :
    readListLoop g n i acc r = readListLoop f n i acc r := by
  induction hfg with
  | refl => rfl
  | step _ ih => rw [(step_mono _).2.2.1 n i acc r (by rw [ih]; exact h), ih]

/-- A result of the loop of `readDict` that is not `outOfFuel` stays the same
under a larger bound. -/
theorem readDictLoop_mono {f g : Nat} (hfg : f ≤ g) (acc : List (Value × Value))
    (r : Reader) (h : readDictLoop f acc r ≠ Outcome.outOfFuel) :
    readDictLoop g acc r = readDictLoop f acc r := by
  induction hfg with
  | refl => rfl
  | step _ ih => rw [(step_mono _).2.2.2.2 acc r (by rw [ih]; exact h), ih]

/-- A result of `Unmarshal` that is not `outOfFuel` stays the same under a
larger bound. -/
theorem Unmarshal_mono {f g : Nat} (hfg : f ≤ g) (r : Reader)
    (h : Unmarshal f r ≠ Outcome.outOfFuel) : Unmarshal g r = Unmarshal f r := by
  unfold Unmarshal at h ⊢
  rcases hb : ReadByte r with ⟨c, _ | e, r1⟩
  · simp only [hb] at h ⊢
    exact unmarshal_mono hfg c r1 h
  · simp only [hb]

/-- The result of `Unmarshal` does not depend on the bound: once some bound
gives the outcome `o`, every bound gives `o` or runs out. -/
theorem Unmarshal_det {n : Nat} {r : Reader} {o : Outcome Value} (h : Unmarshal n r = o)
    (ho : o ≠ Outcome.outOfFuel) (fuel : Nat) :
    Unmarshal fuel r = Outcome.outOfFuel ∨ Unmarshal fuel r = o := by
  by_cases hf : Unmarshal fuel r = Outcome.outOfFuel
  · exact Or.inl hf
  · right
    rcases Nat.le_total fuel n with hle | hle
    · rw [← h]
      exact (Unmarshal_mono hle r hf).symm
    · rw [Unmarshal_mono hle r (by rw [h]; exact ho), h]

/-- The outcome `Unmarshal` gives with the bound `n`, when it is not
`outOfFuel`, is its outcome for every bound from `n` on. -/
theorem Unmarshal_from {n : Nat} {r : Reader} {o : Outcome Value} (h : Unmarshal n r = o)
    (ho : o ≠ Outcome.outOfFuel) : ∃ m, ∀ fuel, m ≤ fuel → Unmarshal fuel r = o :=
  ⟨n, fun _ hle => by rw [Unmarshal_mono hle r (by rw [h]; exact ho), h]⟩

/-! ## Scalars -/

/-- Decoding the four bytes of `putInt32 v` gives back `v` in the `int32`
range. -/
theorem binaryReadInt32_putInt32 (v : Int) (h1 : -2147483648 ≤ v) (h2 : v < 2147483648)
    (t : List Byte) : binaryReadInt32 (putInt32 v ++ t) = (v, none, t) := by
  have key : ∀ u : Nat, u = (v % 4294967296).toNat →
      toInt32 (leUint32 (u % 256) (u / 256 % 256) (u / 65536 % 256) (u / 16777216 % 256)) = v := by
    intro u hu
    unfold toInt32 leUint32
    split_ifs <;> omega
  simp only [putInt32, List.cons_append, List.nil_append, binaryReadInt32]
  rw [key _ rfl]

/-- Decoding the eight bytes of `putUint64 b` gives back `b` below `2^64`. -/
theorem leUint64_putUint64 (b : Nat) (h : b < 18446744073709551616) :
    leUint64 (putUint64 b) = b := by
  simp [leUint64, putUint64]
  omega

/-- `Read` of eight bytes from a source that starts with `putUint64 b`. -/
theorem Read_putUint64 (b : Nat) (t : List Byte) :
    Read (putUint64 b ++ t) 8 = (putUint64 b, 8, none, t) := by
  simp [Read, putUint64]

/-- `Read` of exactly the bytes `s` that start the source. -/
theorem Read_append (s t : List Byte) :
    Read (s ++ t) s.length = (s, s.length, none, t) := by
  unfold Read
  by_cases h : s.length ≠ 0 ∧ s ++ t = []
  · exfalso
    obtain ⟨h0, he⟩ := h
    have : s = [] := (List.append_eq_nil.mp he).1
    simp [this] at h0
  · rw [if_neg h]
    simp

/-- The tag `'N'` decodes to nil and reads nothing. -/
theorem unmarshal_none (f : Nat) (r : Reader) :
    unmarshal (f + 1) CODE_NONE r = Outcome.ret Value.nil none r := by
  simp [unmarshal]

/-- The tag `'i'` followed by `putInt32 v` decodes to `v`. -/
theorem unmarshal_int (f : Nat) (v : Int) (h1 : -2147483648 ≤ v) (h2 : v < 2147483648)
    (t : List Byte) :
    unmarshal (f + 1) CODE_INT (putInt32 v ++ t) = Outcome.ret (Value.int32 v) none t := by
  simp [unmarshal, readInt32, binaryReadInt32_putInt32 v h1 h2, CODE_INT, CODE_NONE]

/-- The tag `'g'` followed by `putUint64 b` decodes to the pattern `b`. -/
theorem unmarshal_float (f : Nat) (b : Nat) (h : b < 18446744073709551616) (t : List Byte) :
    unmarshal (f + 1) CODE_FLOAT (putUint64 b ++ t) = Outcome.ret (Value.float64 b) none t := by
  simp [unmarshal, readFloat64, Read_putUint64, leUint64_putUint64 b h, CODE_FLOAT, CODE_NONE,
    CODE_INT, CODE_INT2]

/-- The tag `'s'` followed by the length of `s` and the bytes `s` decodes to
`s`. -/
theorem unmarshal_str (f : Nat) (s : List Byte) (h : s.length < 2147483648) (t : List Byte) :
    unmarshal (f + 1) CODE_STRING (putInt32 s.length ++ (s ++ t)) =
      Outcome.ret (Value.str s) none t := by
  have hb := binaryReadInt32_putInt32 (s.length : Int) (by omega) (by omega) (s ++ t)
  have hneg : ¬ ((s.length : Int) < 0) := by omega
  simp [unmarshal, readString, hb, hneg, Read_append, CODE_STRING, CODE_FLOAT, CODE_NONE,
    CODE_INT, CODE_INT2]

/-- The tag `'['` followed by the count 0 decodes to the empty sequence. -/
theorem unmarshal_list_nil (f : Nat) (t : List Byte) :
    unmarshal (f + 3) CODE_LIST (putInt32 0 ++ t) = Outcome.ret (Value.list []) none t := by
  have hb := binaryReadInt32_putInt32 0 (by omega) (by omega) t
  simp [unmarshal, readList, readListLoop, hb, CODE_LIST, CODE_TUPLE, CODE_STRING, CODE_UNICODE,
    CODE_TSTRING, CODE_FLOAT, CODE_NONE, CODE_INT, CODE_INT2]

/-- The tag `'{'` enters the loop of `readDict` with the empty map. -/
theorem unmarshal_dict (f : Nat) (r : Reader) :
    unmarshal (f + 2) CODE_DICT r =
      match readDictLoop f [] r with
      | Outcome.ret v e r1 => Outcome.ret (Value.dict v) e r1
      | Outcome.panic p => Outcome.panic p
      | Outcome.outOfFuel => Outcome.outOfFuel := by
  simp [unmarshal, readDict, CODE_DICT, CODE_LIST, CODE_TUPLE, CODE_STRING, CODE_UNICODE,
    CODE_TSTRING, CODE_FLOAT, CODE_NONE, CODE_INT, CODE_INT2]

/-- The tag `'0'` is not the tag of a value: `unmarshal` returns the
unknown-code error on it. -/
theorem unmarshal_stop (f : Nat) (r : Reader) :
    unmarshal (f + 1) CODE_STOP r = Outcome.ret Value.nil (some Error.ERR_UNKNOWN_CODE) r := by
  simp [unmarshal, CODE_STOP, CODE_DICT, CODE_LIST, CODE_TUPLE, CODE_STRING, CODE_UNICODE,
    CODE_TSTRING, CODE_FLOAT, CODE_NONE, CODE_INT, CODE_INT2]

/-! ## Well-formed inputs -/

/-- `Unmarshal` on a source with a first byte is `unmarshal` on that byte. -/
theorem Unmarshal_cons (fuel : Nat) (c : Byte) (r : Reader) :
    Unmarshal fuel (c :: r) = unmarshal fuel c r := rfl

/-- A well-formed encoding starts with a tag byte other than `'0'`, and
`unmarshal` on that tag decodes the rest of it. -/
theorem WellFormed.uncons {seg : List Byte} {v : Value} (h : WellFormed seg v) :
    ∃ c body, seg = c :: body ∧ c ≠ CODE_STOP ∧
      ∃ n, ∀ fuel, n ≤ fuel → ∀ t, unmarshal fuel c (body ++ t) = Outcome.ret v none t := by
  obtain ⟨n, hn⟩ := h
  cases seg with
  | nil =>
    have := hn n le_rfl []
    simp [Unmarshal, ReadByte] at this
  | cons c body =>
    refine ⟨c, body, rfl, ?_, n, fun fuel hf t => ?_⟩
    · intro hc
      have := hn (n + 1) (Nat.le_succ n) []
      rw [hc, List.cons_append, Unmarshal_cons, unmarshal_stop] at this
      simp at this
    · have := hn fuel hf t
      rwa [List.cons_append, Unmarshal_cons] at this

/-- Bytes that `unmarshal` decodes after their tag, whatever follows, are a
well-formed encoding. -/
theorem WellFormed.of_unmarshal {c : Byte} {body : List Byte} {v : Value} (n : Nat)
    (h : ∀ fuel, n ≤ fuel → ∀ t, unmarshal fuel c (body ++ t) = Outcome.ret v none t) :
    WellFormed (c :: body) v :=
  ⟨n, fun fuel hf t => by rw [List.cons_append, Unmarshal_cons]; exact h fuel hf t⟩

/-! ## Maps -/

/-- Assigning a key that equals no key of the map adds an entry at the end. -/
theorem mapAssign_fresh (m : List (Value × Value)) (k v : Value)
    (h : ∀ e ∈ m, keyEq e.1 k = false) : mapAssign m k v = m ++ [(k, v)] := by
  induction m with
  | nil => rfl
  | cons e m ih =>
    obtain ⟨k0, v0⟩ := e
    have h0 : keyEq k0 k = false := h (k0, v0) (List.mem_cons_self _ _)
    simp only [mapAssign, h0, Bool.false_eq_true, if_false, List.cons_append]
    rw [ih (fun e he => h e (List.mem_cons_of_mem _ he))]

/-- The pair of a wire pair is among the wire entries. -/
theorem mem_wireEntries {ps : List WirePair} {q : WirePair} (hq : q ∈ ps) :
    (q.key, q.val) ∈ wireEntries ps := by
  induction ps with
  | nil => cases hq
  | cons q0 ps ih =>
    rcases List.mem_cons.mp hq with rfl | hq
    · exact List.mem_cons_self _ _
    · exact List.mem_cons_of_mem _ (ih hq)

/-- Assigning wire pairs whose keys are pairwise different, and different
from the keys already in the map, adds them in wire order. -/
theorem assignAll_distinct (ps : List WirePair) :
    ∀ acc : List (Value × Value),
      (∀ e ∈ acc, ∀ p ∈ ps, keyEq e.1 p.key = false) →
      distinctKeys (wireEntries ps) = true →
      assignAll acc ps = acc ++ wireEntries ps := by
  induction ps with
  | nil => intro acc _ _; simp [assignAll, wireEntries]
  | cons p ps ih =>
    intro acc hacc hd
    simp only [wireEntries, distinctKeys, Bool.and_eq_true, List.all_eq_true,
      Bool.not_eq_true'] at hd
    simp only [assignAll]
    rw [mapAssign_fresh acc p.key p.val (fun e he => hacc e he p (List.mem_cons_self _ _))]
    rw [ih (acc ++ [(p.key, p.val)]) ?_ hd.2]
    · simp [wireEntries]
    · intro e he q hq
      rcases List.mem_append.mp he with he | he
      · exact hacc e he q (List.mem_cons_of_mem _ hq)
      · simp only [List.mem_singleton] at he
        subst he
        exact hd.1 (q.key, q.val) (mem_wireEntries hq)

/-! ## The loop of `readDict` on well-formed pairs -/

/-- On the bytes of well-formed pairs with hashable keys followed by the tag
`'0'`, the loop of `readDict` assigns the pairs in wire order, stops at the
tag `'0'` and leaves what follows it. -/
theorem readDictLoop_wire (ps : List WirePair)
    (hwf : ∀ p ∈ ps, WellFormed p.keyBytes p.key ∧ WellFormed p.valBytes p.val)
    (hh : ∀ p ∈ ps, hashable p.key = true) :
    ∃ n, ∀ fuel, n ≤ fuel → ∀ (acc : List (Value × Value)) (t : List Byte),
      readDictLoop fuel acc (wireBytes ps ++ CODE_STOP :: t) =
        Outcome.ret (assignAll acc ps) none t := by
  induction ps with
  | nil =>
    refine ⟨1, fun fuel hf acc t => ?_⟩
    obtain ⟨f, rfl⟩ : ∃ f, fuel = f + 1 := ⟨fuel - 1, by omega⟩
    simp [wireBytes, readDictLoop, ReadByte, assignAll]
  | cons p ps ih =>
    obtain ⟨ck, bk, hk, hks, nk, hnk⟩ := (hwf p (List.mem_cons_self _ _)).1.uncons
    obtain ⟨cv, bv, hv, _, nv, hnv⟩ := (hwf p (List.mem_cons_self _ _)).2.uncons
    obtain ⟨n1, hn1⟩ := ih (fun q hq => hwf q (List.mem_cons_of_mem _ hq))
      (fun q hq => hh q (List.mem_cons_of_mem _ hq))
    refine ⟨max nk (max nv n1) + 1, fun fuel hf acc t => ?_⟩
    obtain ⟨f, rfl⟩ : ∃ f, fuel = f + 1 := ⟨fuel - 1, by omega⟩
    have e1 := hnk f (by omega) (cv :: (bv ++ (wireBytes ps ++ CODE_STOP :: t)))
    have e2 := hnv f (by omega) (wireBytes ps ++ CODE_STOP :: t)
    have e3 := hn1 f (by omega) (mapAssign acc p.key p.val) t
    have e4 := hh p (List.mem_cons_self _ _)
    simp [readDictLoop, wireBytes, hk, hv, ReadByte, hks, e1, e2, e3, e4, assignAll]

/-- On the tag `'{'`, the bytes of well-formed pairs with hashable keys and
the tag `'0'`, `Unmarshal` returns the map of the pairs assigned in wire
order and leaves what follows the tag `'0'`. -/
theorem Unmarshal_dict_wire (ps : List WirePair)
    (hwf : ∀ p ∈ ps, WellFormed p.keyBytes p.key ∧ WellFormed p.valBytes p.val)
    (hh : ∀ p ∈ ps, hashable p.key = true) :
    ∃ n, ∀ fuel, n ≤ fuel → ∀ t : List Byte,
      Unmarshal fuel (CODE_DICT :: (wireBytes ps ++ CODE_STOP :: t)) =
        Outcome.ret (Value.dict (assignAll [] ps)) none t := by
  obtain ⟨n, hn⟩ := readDictLoop_wire ps hwf hh
  refine ⟨n + 2, fun fuel hf t => ?_⟩
  obtain ⟨f, rfl⟩ : ∃ f, fuel = f + 2 := ⟨fuel - 2, by omega⟩
  rw [Unmarshal_cons, unmarshal_dict, hn f (by omega)]

/-! ## Go's `==` on keys -/

/-- What `float64Eq` says, as a proposition. -/
theorem float64Eq_iff (a b : Nat) :
    float64Eq a b = true ↔
      isNaN a = false ∧ isNaN b = false ∧
        (a % 18446744073709551616 = b % 18446744073709551616 ∨
          (a % 9223372036854775808 = 0 ∧ b % 9223372036854775808 = 0)) := by
  simp [float64Eq, and_assoc]

/-- Go's `==` on hashable values is symmetric. -/
theorem keyEq_symm {a b : Value} (h : keyEq a b = true) : keyEq b a = true := by
  cases a <;> cases b <;> simp_all [keyEq]
  rw [float64Eq_iff] at h ⊢
  obtain ⟨h1, h2, h3⟩ := h
  refine ⟨h2, h1, ?_⟩
  rcases h3 with h3 | h3
  · exact Or.inl h3.symm
  · exact Or.inr ⟨h3.2, h3.1⟩

/-- Go's `==` on hashable values is transitive. -/
theorem keyEq_trans {a b c : Value} (h1 : keyEq a b = true) (h2 : keyEq b c = true) :
    keyEq a c = true := by
  cases a <;> cases b <;> cases c <;> simp_all [keyEq]
  rw [float64Eq_iff] at h1 h2 ⊢
  obtain ⟨a1, a2, a3⟩ := h1
  obtain ⟨b1, b2, b3⟩ := h2
  refine ⟨a1, b2, ?_⟩
  omega

/-- After `m[k] = v` the map has the entry `(k, v)`. -/
theorem mem_mapAssign_self (m : List (Value × Value)) (k v : Value) :
    (k, v) ∈ mapAssign m k v := by
  induction m with
  | nil => simp [mapAssign]
  | cons e m ih =>
    obtain ⟨k0, v0⟩ := e
    simp only [mapAssign]
    split_ifs
    · exact List.mem_cons_self _ _
    · exact List.mem_cons_of_mem _ ih

/-- An assignment keeps, for a key `k` held by the map, an entry whose key is
`k` or equals `k` under Go's `==`. -/
theorem mapAssign_keeps (m : List (Value × Value)) (k k2 v2 : Value)
    (h : ∃ e ∈ m, e.1 = k ∨ keyEq e.1 k = true) :
    ∃ e ∈ mapAssign m k2 v2, e.1 = k ∨ keyEq e.1 k = true := by
  induction m with
  | nil => obtain ⟨e, he, _⟩ := h; cases he
  | cons e0 m ih =>
    obtain ⟨k0, v0⟩ := e0
    obtain ⟨e, he, hk⟩ := h
    simp only [mapAssign]
    by_cases h0 : keyEq k0 k2 = true
    · rw [if_pos h0]
      rcases List.mem_cons.mp he with rfl | he
      · refine ⟨(k2, v2), List.mem_cons_self _ _, Or.inr ?_⟩
        rcases hk with hk | hk
        · simp only at hk
          subst hk
          exact keyEq_symm h0
        · exact keyEq_trans (keyEq_symm h0) hk
      · exact ⟨e, List.mem_cons_of_mem _ he, hk⟩
    · rw [if_neg h0]
      rcases List.mem_cons.mp he with rfl | he
      · exact ⟨(k0, v0), List.mem_cons_self _ _, hk⟩
      · obtain ⟨e1, he1, hk1⟩ := ih ⟨e, he, hk⟩
        exact ⟨e1, List.mem_cons_of_mem _ he1, hk1⟩

/-- The assignments of wire pairs keep, for a key held by the map, an entry
whose key is that key or equals it under Go's `==`. -/
theorem assignAll_keeps (ps : List WirePair) :
    ∀ (acc : List (Value × Value)) (k : Value),
      (∃ e ∈ acc, e.1 = k ∨ keyEq e.1 k = true) →
      ∃ e ∈ assignAll acc ps, e.1 = k ∨ keyEq e.1 k = true := by
  induction ps with
  | nil => intro acc k h; exact h
  | cons p ps ih =>
    intro acc k h
    exact ih _ k (mapAssign_keeps acc k p.key p.val h)

/-- After the assignments of wire pairs the map holds, for the key of every
pair, an entry whose key is that key or equals it under Go's `==`. -/
theorem assignAll_contains (ps : List WirePair) :
    ∀ (acc : List (Value × Value)), ∀ p ∈ ps,
      ∃ e ∈ assignAll acc ps, e.1 = p.key ∨ keyEq e.1 p.key = true := by
  induction ps with
  | nil => intro acc p hp; cases hp
  | cons p0 ps ih =>
    intro acc p hp
    rcases List.mem_cons.mp hp with rfl | hp
    · exact assignAll_keeps ps _ _ ⟨(p.key, p.val), mem_mapAssign_self acc p.key p.val, Or.inl rfl⟩
    · exact ih _ p hp

/-! ## The reference encoding is well formed -/

/-- The bytes of the wire pairs of a mapping are its reference encoding. -/
theorem wireBytes_toWire (ps : List (Value × Value)) :
    wireBytes (toWire ps) = refEncodePairs ps := by
  induction ps with
  | nil => simp [toWire, wireBytes, refEncodePairs]
  | cons e ps ih =>
    obtain ⟨k, v⟩ := e
    simp [toWire, wireBytes, refEncodePairs, ih]

/-- The entries of the wire pairs of a mapping are its pairs. -/
theorem wireEntries_toWire (ps : List (Value × Value)) : wireEntries (toWire ps) = ps := by
  induction ps with
  | nil => rfl
  | cons e ps ih =>
    obtain ⟨k, v⟩ := e
    simp [toWire, wireEntries, ih]

mutual

/-- The reference encoding of a canonical value is well formed: `Unmarshal`
returns the value and leaves what follows the encoding. -/
theorem wellFormed_refEncode : ∀ v : Value, canonical v = true → WellFormed (refEncode v) v
  | Value.nil, _ =>
    WellFormed.of_unmarshal 1 (fun fuel hf t => by
      obtain ⟨f, rfl⟩ : ∃ f, fuel = f + 1 := ⟨fuel - 1, by omega⟩
      exact unmarshal_none f _)
  | Value.int32 v, h =>
    WellFormed.of_unmarshal 1 (fun fuel hf t => by
      obtain ⟨f, rfl⟩ : ∃ f, fuel = f + 1 := ⟨fuel - 1, by omega⟩
      simp only [canonical, decide_eq_true_eq] at h
      exact unmarshal_int f v h.1 h.2 t)
  | Value.float64 b, h =>
    WellFormed.of_unmarshal 1 (fun fuel hf t => by
      obtain ⟨f, rfl⟩ : ∃ f, fuel = f + 1 := ⟨fuel - 1, by omega⟩
      simp only [canonical, decide_eq_true_eq] at h
      exact unmarshal_float f b h t)
  | Value.str s, h =>
    WellFormed.of_unmarshal 1 (fun fuel hf t => by
      obtain ⟨f, rfl⟩ : ∃ f, fuel = f + 1 := ⟨fuel - 1, by omega⟩
      simp only [canonical, decide_eq_true_eq] at h
      rw [List.append_assoc]
      exact unmarshal_str f s h t)
  | Value.list xs, h => by
    have hx : xs = [] := by
      simpa [canonical] using h
    subst hx
    refine WellFormed.of_unmarshal 3 (fun fuel hf t => ?_)
    obtain ⟨f, rfl⟩ : ∃ f, fuel = f + 3 := ⟨fuel - 3, by omega⟩
    simpa [refEncodeList] using unmarshal_list_nil f t
  | Value.dict ps, h => by
    simp only [canonical, Bool.and_eq_true] at h
    have hp := wellFormed_refEncodePairs ps h.1
    obtain ⟨n, hn⟩ := Unmarshal_dict_wire (toWire ps)
      (fun p hp1 => ⟨(hp p hp1).1, (hp p hp1).2.1⟩) (fun p hp1 => (hp p hp1).2.2)
    have hd : distinctKeys (wireEntries (toWire ps)) = true := by
      rw [wireEntries_toWire]; exact h.2
    have ha := assignAll_distinct (toWire ps) [] (fun e he => by cases he) hd
    rw [List.nil_append, wireEntries_toWire] at ha
    rw [ha, wireBytes_toWire] at hn
    refine ⟨n, fun fuel hf t => ?_⟩
    have heq : refEncode (Value.dict ps) ++ t =
        CODE_DICT :: (refEncodePairs ps ++ CODE_STOP :: t) := by
      simp [refEncode]
    rw [heq]
    exact hn fuel hf t

/-- The keys and values of canonical pairs are well formed under the
reference encoding, and the keys are hashable. -/
theorem wellFormed_refEncodePairs : ∀ ps : List (Value × Value), canonicalPairs ps = true →
    ∀ p ∈ toWire ps,
      WellFormed p.keyBytes p.key ∧ WellFormed p.valBytes p.val ∧ hashable p.key = true
  | [], _ => fun p hp => by cases hp
  | (k, v) :: ps, h => fun p hp => by
    simp only [canonicalPairs, Bool.and_eq_true] at h
    simp only [toWire, List.mem_cons] at hp
    rcases hp with rfl | hp
    · exact ⟨wellFormed_refEncode k h.1.1.2, wellFormed_refEncode v h.1.2, h.1.1.1⟩
    · exact wellFormed_refEncodePairs ps h.2 p hp

end

/-! ## The decoders on malformed input

What the decoders do, in general, on a negative length or count and at the
end of the source. -/

/-- A negative count panics: whenever the four bytes of the count decode to a
negative `int32`, `readList` panics in `make`. -/
theorem readList_negative_count (b0 b1 b2 b3 : Byte) (rest : List Byte) (fuel : Nat)
    (h : toInt32 (leUint32 b0 b1 b2 b3) < 0) :
    readList (fuel + 1) (b0 :: b1 :: b2 :: b3 :: rest) = Outcome.panic Panic.makesliceLen := by
  simp [readList, binaryReadInt32, h]

/-- A negative count panics, at the count -1 followed by one byte. -/
theorem readList_negative_count_witness :
    readList 1 [0xff, 0xff, 0xff, 0xff, 0x4e] = Outcome.panic Panic.makesliceLen :=
  readList_negative_count 0xff 0xff 0xff 0xff [0x4e] 0 (by decide)

/-- A negative length panics: whenever the four bytes of the length decode to
a negative `int32`, `readString` panics in `make`. -/
theorem readString_negative_length (b0 b1 b2 b3 : Byte) (rest : List Byte)
    (h : toInt32 (leUint32 b0 b1 b2 b3) < 0) :
    readString (b0 :: b1 :: b2 :: b3 :: rest) = Outcome.panic Panic.makesliceLen := by
  simp [readString, binaryReadInt32, h]

/-- A negative length panics, at the length -2147483648 followed by one
byte. -/
theorem readString_negative_length_witness :
    readString [0, 0, 0, 0x80, 0x61] = Outcome.panic Panic.makesliceLen :=
  readString_negative_length 0 0 0 0x80 [0x61] (by decide)

/-- A short payload is padded: whenever the declared length is not negative
and more than the bytes left, `readString` returns with a nil error the bytes
left followed by zero bytes up to the declared length, and the source is
empty. -/
theorem readString_short_payload (b0 b1 b2 b3 : Byte) (rest : List Byte)
    (h0 : 0 ≤ toInt32 (leUint32 b0 b1 b2 b3))
    (hlt : rest.length < (toInt32 (leUint32 b0 b1 b2 b3)).toNat) :
    readString (b0 :: b1 :: b2 :: b3 :: rest) =
      Outcome.ret
        (rest ++ List.replicate ((toInt32 (leUint32 b0 b1 b2 b3)).toNat - rest.length) 0)
        none [] := by
  have hneg : ¬ toInt32 (leUint32 b0 b1 b2 b3) < 0 := by omega
  simp only [readString, binaryReadInt32, hneg, if_false, Read]
  by_cases hr : rest = []
  · subst hr
    have hn : (toInt32 (leUint32 b0 b1 b2 b3)).toNat ≠ 0 := by
      simp only [List.length_nil] at hlt
      omega
    simp [hn]
  · have hc : ¬ ((toInt32 (leUint32 b0 b1 b2 b3)).toNat ≠ 0 ∧ rest = []) := fun hh => hr hh.2
    rw [if_neg hc]
    simp [List.take_of_length_le (le_of_lt hlt), List.drop_of_length_le (le_of_lt hlt)]

/-- A short payload is padded, at the length 3 followed by one byte. -/
theorem readString_short_payload_witness :
    readString [3, 0, 0, 0, 0x61] = Outcome.ret [0x61, 0, 0] none [] :=
  readString_short_payload 3 0 0 0 [0x61] (by decide) (by decide)

/-- The end of the source inside the loop of `readList` is not an error:
with elements still to read and no byte left, the loop returns the slice
built so far with a nil error. -/
theorem readListLoop_end_of_source (fuel : Nat) (listSize : Int) (idx : Nat)
    (ret : List Value) (h : (idx : Int) < listSize) :
    readListLoop (fuel + 1) listSize idx ret [] = Outcome.ret ret none [] := by
  simp [readListLoop, h, ReadByte]

/-- The end of the source inside the loop of `readList`, at the count 3 with
one element read. -/
theorem readListLoop_end_of_source_witness :
    readListLoop 1 3 1 [Value.nil, Value.nil, Value.nil, Value.int32 7] [] =
      Outcome.ret [Value.nil, Value.nil, Value.nil, Value.int32 7] none [] :=
  readListLoop_end_of_source 0 3 1 _ (by decide)

/-- The end of the source at a key-tag read of `readDict` is not an error:
the loop returns the map built so far with a nil error. -/
theorem readDictLoop_end_of_source (fuel : Nat) (ret : List (Value × Value)) :
    readDictLoop (fuel + 1) ret [] = Outcome.ret ret none [] := by
  simp [readDictLoop, ReadByte]

/-! ## Little-endian payloads -/

/-- The `int32` of four bytes: the two's-complement reading of
`b0 + 2^8 b1 + 2^16 b2 + 2^24 b3`. -/
theorem toInt32_leUint32 (b0 b1 b2 b3 : Nat) (h0 : b0 < 256) (h1 : b1 < 256) (h2 : b2 < 256)
    (h3 : b3 < 256) :
    toInt32 (leUint32 b0 b1 b2 b3) =
      (if b0 + 256 * b1 + 65536 * b2 + 16777216 * b3 < 2147483648 then
        ((b0 + 256 * b1 + 65536 * b2 + 16777216 * b3 : Nat) : Int)
      else ((b0 + 256 * b1 + 65536 * b2 + 16777216 * b3 : Nat) : Int) - 4294967296) := by
  unfold toInt32 leUint32
  split_ifs <;> omega

/-- The 64-bit value of eight bytes: `b0 + 2^8 b1 + ... + 2^56 b7`. -/
theorem leUint64_bytes (b0 b1 b2 b3 b4 b5 b6 b7 : Nat) (h0 : b0 < 256) (h1 : b1 < 256)
    (h2 : b2 < 256) (h3 : b3 < 256) (h4 : b4 < 256) (h5 : b5 < 256) (h6 : b6 < 256)
    (h7 : b7 < 256) :
    leUint64 [b0, b1, b2, b3, b4, b5, b6, b7] =
      b0 + 256 * b1 + 65536 * b2 + 16777216 * b3 + 4294967296 * b4 +
        1099511627776 * b5 + 281474976710656 * b6 + 72057594037927936 * b7 := by
  simp [leUint64]
  omega

/-- The tag `'{'` calls `readDict`. -/
theorem unmarshal_dict_step (f : Nat) (r : Reader) :
    unmarshal (f + 1) CODE_DICT r =
      match readDict f r with
      | Outcome.ret v e r1 => Outcome.ret (Value.dict v) e r1
      | Outcome.panic p => Outcome.panic p
      | Outcome.outOfFuel => Outcome.outOfFuel := by
  simp [unmarshal, CODE_DICT, CODE_LIST, CODE_TUPLE, CODE_STRING, CODE_UNICODE,
    CODE_TSTRING, CODE_FLOAT, CODE_NONE, CODE_INT, CODE_INT2]

/-! ## Every call reads forward, and the recursion ends -/

/-- `ReadByte` never lengthens the source, and a byte read shortens it by
one. -/
theorem ReadByte_length {r r1 : Reader} {b : Byte} {e : Option Error}
    (h : ReadByte r = (b, e, r1)) :
    r1.length ≤ r.length ∧ (e = none → r1.length + 1 = r.length) := by
  cases r with
  | nil => simp [ReadByte] at h; simp [← h.2.2, ← h.2.1]
  | cons c rest =>
    simp only [ReadByte, Prod.mk.injEq] at h
    simp [← h.2.2]

/-- `binary.Read` never lengthens the source. -/
theorem binaryReadInt32_length {r r1 : Reader} {v : Int} {e : Option Error}
    (h : binaryReadInt32 r = (v, e, r1)) : r1.length ≤ r.length := by
  unfold binaryReadInt32 at h
  split at h <;> simp only [Prod.mk.injEq] at h <;> simp [← h.2.2]
  omega

/-- `readInt32` never lengthens the source. -/
theorem readInt32_length {r r1 : Reader} {v : Int} {e : Option Error}
    (h : readInt32 r = Outcome.ret v e r1) : r1.length ≤ r.length := by
  unfold readInt32 at h
  rcases hb : binaryReadInt32 r with ⟨n, _ | err, r2⟩ <;> simp only [hb] at h <;>
    cases h <;> exact binaryReadInt32_length hb

/-- `Read` never lengthens the source. -/
theorem Read_length {r r1 : Reader} {n num : Nat} {buf : List Byte} {e : Option Error}
    (h : Read r n = (buf, num, e, r1)) : r1.length ≤ r.length := by
  unfold Read at h
  split_ifs at h <;> simp only [Prod.mk.injEq] at h <;> simp [← h.2.2.2]

/-- `readFloat64` never lengthens the source. -/
theorem readFloat64_length {r r1 : Reader} {v : Nat} {e : Option Error}
    (h : readFloat64 r = Outcome.ret v e r1) : r1.length ≤ r.length := by
  unfold readFloat64 at h
  rcases hR : Read r 8 with ⟨tmp, num, err, r2⟩
  simp only [hR] at h
  split_ifs at h <;> cases h <;> exact Read_length hR

/-- `readString` never lengthens the source. -/
theorem readString_length {r r1 : Reader} {v : List Byte} {e : Option Error}
    (h : readString r = Outcome.ret v e r1) : r1.length ≤ r.length := by
  unfold readString at h
  rcases hb : binaryReadInt32 r with ⟨n, _ | err, r2⟩ <;> simp only [hb] at h
  · have h2 := binaryReadInt32_length hb
    split_ifs at h
    rcases hR : Read r2 n.toNat with ⟨buf, num, err, r3⟩
    simp only [hR] at h
    cases h
    have h3 := Read_length hR
    omega
  · cases h
    exact binaryReadInt32_length hb

/-- No call lengthens the source: whatever one of the five mutually
recursive functions returns, the source it leaves is no longer than the
source it was given. -/
theorem length_le (f : Nat) :
    (∀ c r v e r1, unmarshal f c r = Outcome.ret v e r1 → r1.length ≤ r.length) ∧
    (∀ r v e r1, readList f r = Outcome.ret v e r1 → r1.length ≤ r.length) ∧
    (∀ n i acc r v e r1, readListLoop f n i acc r = Outcome.ret v e r1 →
      r1.length ≤ r.length) ∧
    (∀ r v e r1, readDict f r = Outcome.ret v e r1 → r1.length ≤ r.length) ∧
    (∀ acc r v e r1, readDictLoop f acc r = Outcome.ret v e r1 → r1.length ≤ r.length) := by
  induction f with
  | zero =>
    refine ⟨?_, ?_, ?_, ?_, ?_⟩ <;> intros <;>
      simp_all [unmarshal, readList, readListLoop, readDict, readDictLoop]
  | succ f ih =>
    obtain ⟨ihU, ihL, ihLL, ihD, ihDL⟩ := ih
    refine ⟨?_, ?_, ?_, ?_, ?_⟩
    · intro c r v e r1 h
      rw [unmarshal] at h
      split_ifs at h
      · cases h; exact le_rfl
      · cases hr : readInt32 r <;> simp only [hr] at h <;> cases h
        exact readInt32_length hr
      · cases hr : readFloat64 r <;> simp only [hr] at h <;> cases h
        exact readFloat64_length hr
      · cases hr : readString r <;> simp only [hr] at h <;> cases h
        exact readString_length hr
      · cases hr : readList f r <;> simp only [hr] at h <;> cases h
        exact ihL _ _ _ _ hr
      · cases hr : readDict f r <;> simp only [hr] at h <;> cases h
        exact ihD _ _ _ _ hr
      · cases h; exact le_rfl
    · intro r v e r1 h
      rw [readList] at h
      rcases hb : binaryReadInt32 r with ⟨n, _ | err, r2⟩ <;> simp only [hb] at h
      · have h2 := binaryReadInt32_length hb
        split_ifs at h
        have h3 := ihLL _ _ _ _ _ _ _ h
        omega
      · cases h
        exact binaryReadInt32_length hb
    · intro n i acc r v e r1 h
      rw [readListLoop] at h
      split_ifs at h
      · rcases hb : ReadByte r with ⟨c, _ | err, r2⟩ <;> simp only [hb] at h
        · have h2 := (ReadByte_length hb).1
          cases hu : unmarshal f c r2 with
          | outOfFuel => simp [hu] at h
          | panic p => simp [hu] at h
          | ret w e2 r3 =>
            have h3 := ihU _ _ _ _ _ hu
            cases e2 with
            | some e2 =>
              simp only [hu] at h
              cases h
              omega
            | none =>
              simp only [hu] at h
              have h4 := ihLL _ _ _ _ _ _ _ h
              omega
        · cases h
          exact (ReadByte_length hb).1
      · cases h; exact le_rfl
    · intro r v e r1 h
      rw [readDict] at h
      exact ihDL _ _ _ _ _ h
    · intro acc r v e r1 h
      rw [readDictLoop] at h
      rcases hb : ReadByte r with ⟨c, _ | err, r2⟩ <;> simp only [hb] at h
      · have h2 := (ReadByte_length hb).1
        split_ifs at h
        · cases h; exact h2
        · cases hu : unmarshal f c r2 with
          | outOfFuel => simp [hu] at h
          | panic p => simp [hu] at h
          | ret k e2 r3 =>
            have h3 := ihU _ _ _ _ _ hu
            cases e2 with
            | some e2 =>
              simp only [hu] at h
              cases h
              omega
            | none =>
              simp only [hu] at h
              rcases hb2 : ReadByte r3 with ⟨c2, _ | err2, r4⟩ <;> simp only [hb2] at h
              · have h4 := (ReadByte_length hb2).1
                cases hu2 : unmarshal f c2 r4 with
                | outOfFuel => simp [hu2] at h
                | panic p => simp [hu2] at h
                | ret w e3 r5 =>
                  have h5 := ihU _ _ _ _ _ hu2
                  cases e3 with
                  | some e3 =>
                    simp only [hu2] at h
                    cases h
                    omega
                  | none =>
                    simp only [hu2] at h
                    split_ifs at h
                    have h6 := ihDL _ _ _ _ _ h
                    omega
              · cases h
                have h4 := (ReadByte_length hb2).1
                omega
      · cases h
        exact (ReadByte_length hb).1

/-- The recursion ends: with a bound of three units per byte of the source
(and three more for `unmarshal`, two for `readList` and `readDict`, one for
the loops) none of the five functions runs out. -/
theorem fuel_suffices (f : Nat) :
    (∀ c r, 3 * r.length + 3 ≤ f → unmarshal f c r ≠ Outcome.outOfFuel) ∧
    (∀ r, 3 * r.length + 2 ≤ f → readList f r ≠ Outcome.outOfFuel) ∧
    (∀ n i acc r, 3 * r.length + 1 ≤ f → readListLoop f n i acc r ≠ Outcome.outOfFuel) ∧
    (∀ r, 3 * r.length + 2 ≤ f → readDict f r ≠ Outcome.outOfFuel) ∧
    (∀ acc r, 3 * r.length + 1 ≤ f → readDictLoop f acc r ≠ Outcome.outOfFuel) := by
  induction f with
  | zero =>
    refine ⟨?_, ?_, ?_, ?_, ?_⟩ <;> intros <;> omega
  | succ f ih =>
    obtain ⟨ihU, ihL, ihLL, ihD, ihDL⟩ := ih
    obtain ⟨shU, -, -, -, -⟩ := length_le f
    refine ⟨?_, ?_, ?_, ?_, ?_⟩
    · intro c r hf
      rw [unmarshal]
      split_ifs
      · simp
      · cases hr : readInt32 r <;> simp
        simp [readInt32] at hr
        split at hr <;> simp at hr
      · cases hr : readFloat64 r <;> simp
        simp only [readFloat64] at hr
        split_ifs at hr
      · cases hr : readString r <;> simp
        simp only [readString] at hr
        split at hr
        · simp at hr
        · split_ifs at hr
      · have := ihL r (by omega)
        cases hr : readList f r <;> simp_all
      · have := ihD r (by omega)
        cases hr : readDict f r <;> simp_all
      · simp
    · intro r hf
      rw [readList]
      rcases hb : binaryReadInt32 r with ⟨n, _ | err, r2⟩ <;> simp only [hb]
      · have h2 := binaryReadInt32_length hb
        split_ifs
        · simp
        · exact ihLL _ _ _ _ (by omega)
      · simp
    · intro n i acc r hf
      rw [readListLoop]
      split_ifs
      · rcases hb : ReadByte r with ⟨c, _ | err, r2⟩ <;> simp only [hb]
        · have h2 := (ReadByte_length hb).2 rfl
          have hu0 := ihU c r2 (by omega)
          cases hu : unmarshal f c r2 with
          | outOfFuel => exact absurd hu hu0
          | panic p => simp
          | ret w e2 r3 =>
            have h3 := shU _ _ _ _ _ hu
            cases e2 with
            | some e2 => simp
            | none => exact ihLL _ _ _ _ (by omega)
        · simp
      · simp
    · intro r hf
      rw [readDict]
      exact ihDL _ _ (by omega)
    · intro acc r hf
      rw [readDictLoop]
      rcases hb : ReadByte r with ⟨c, _ | err, r2⟩ <;> simp only [hb]
      · have h2 := (ReadByte_length hb).2 rfl
        split_ifs
        · simp
        · have hu0 := ihU c r2 (by omega)
          cases hu : unmarshal f c r2 with
          | outOfFuel => exact absurd hu hu0
          | panic p => simp
          | ret k e2 r3 =>
            have h3 := shU _ _ _ _ _ hu
            cases e2 with
            | some e2 => simp
            | none =>
              simp only
              rcases hb2 : ReadByte r3 with ⟨c2, _ | err2, r4⟩ <;> simp only [hb2]
              · have h4 := (ReadByte_length hb2).2 rfl
                have hu1 := ihU c2 r4 (by omega)
                cases hu2 : unmarshal f c2 r4 with
                | outOfFuel => exact absurd hu2 hu1
                | panic p => simp
                | ret w e3 r5 =>
                  have h5 := shU _ _ _ _ _ hu2
                  cases e3 with
                  | some e3 => simp
                  | none =>
                    simp only
                    split_ifs
                    · exact ihDL _ _ (by omega)
                    · simp
              · simp
      · simp

/-! ## Errors of nested calls -/

/-- A call that makes a call returning an error returns that error itself
and leaves the source where the inner call left it. -/
theorem Calls.failure_eq {a b : Frame} (h : Calls a b) {x : Error × Reader}
    (hx : b.failure = some x) : a.failure = some x := by
  cases h with
  | un_list f c r hc =>
    simp only [Frame.failure] at hx ⊢
    have h1 : c ≠ CODE_NONE := by rcases hc with rfl | rfl <;> decide
    have h2 : ¬ (c = CODE_INT ∨ c = CODE_INT2) := by rcases hc with rfl | rfl <;> decide
    have h3 : c ≠ CODE_FLOAT := by rcases hc with rfl | rfl <;> decide
    have h4 : ¬ (c = CODE_STRING ∨ c = CODE_UNICODE ∨ c = CODE_TSTRING) := by
      rcases hc with rfl | rfl <;> decide
    rw [unmarshal, if_neg h1, if_neg h2, if_neg h3, if_neg h4, if_pos hc]
    cases hr : readList f r with
    | outOfFuel => simp [hr] at hx
    | panic p => simp [hr] at hx
    | ret v e r1 =>
      cases e with
      | none => simp [hr] at hx
      | some e => simpa [hr] using hx
  | un_dict f c r hc =>
    subst hc
    simp only [Frame.failure] at hx ⊢
    rw [unmarshal_dict_step]
    cases hr : readDict f r with
    | outOfFuel => simp [hr] at hx
    | panic p => simp [hr] at hx
    | ret v e r1 =>
      cases e with
      | none => simp [hr] at hx
      | some e => simpa [hr] using hx
  | list_loop f r r1 n hb hn =>
    simp only [Frame.failure] at hx ⊢
    rw [readList]
    simp only [hb, hn, if_false]
    exact hx
  | listLoop_elem f n i acc r r1 c hi hb =>
    simp only [Frame.failure] at hx ⊢
    rw [readListLoop]
    simp only [hi, if_true, hb]
    cases hu : unmarshal f c r1 with
    | outOfFuel => simp [hu] at hx
    | panic p => simp [hu] at hx
    | ret v e r2 =>
      cases e with
      | none => simp [hu] at hx
      | some e => simpa [hu] using hx
  | listLoop_next f n i acc r r1 r2 c val hi hb hu =>
    simp only [Frame.failure] at hx ⊢
    rw [readListLoop]
    simp only [hi, if_true, hb, hu]
    exact hx
  | dict_loop f r =>
    simp only [Frame.failure] at hx ⊢
    rw [readDict]
    exact hx
  | dictLoop_key f acc r r1 c hb hc =>
    simp only [Frame.failure] at hx ⊢
    rw [readDictLoop]
    simp only [hb, hc, if_false]
    cases hu : unmarshal f c r1 with
    | outOfFuel => simp [hu] at hx
    | panic p => simp [hu] at hx
    | ret v e r2 =>
      cases e with
      | none => simp [hu] at hx
      | some e => simpa [hu] using hx
  | dictLoop_val f acc r r1 r2 r3 c c2 key hb hc hk hb2 =>
    simp only [Frame.failure] at hx ⊢
    rw [readDictLoop]
    simp only [hb, hc, if_false, hk, hb2]
    cases hu : unmarshal f c2 r3 with
    | outOfFuel => simp [hu] at hx
    | panic p => simp [hu] at hx
    | ret v e r4 =>
      cases e with
      | none => simp [hu] at hx
      | some e => simpa [hu] using hx
  | dictLoop_next f acc r r1 r2 r3 r4 c c2 key val hb hc hk hb2 hv hh =>
    simp only [Frame.failure] at hx ⊢
    rw [readDictLoop]
    simp only [hb, hc, if_false, hk, hb2, hv, hh, if_true]
    exact hx

/-- A call that leads, through any number of nested calls, to a call
returning an error returns that error itself and leaves the source where
that call left it. -/
theorem failure_of_nested {a b : Frame} (h : Relation.ReflTransGen Calls a b)
    {x : Error × Reader} (hx : b.failure = some x) : a.failure = some x := by
  induction h with
  | refl => exact hx
  | tail _ hbc ih => exact ih (hbc.failure_eq hx)

/-! ## One iteration of the loops -/

/-- Bytes on which `Unmarshal` panics start with a tag byte other than `'0'`,
and `unmarshal` on that tag panics on the rest of them. -/
theorem Panics.tagPanics {seg : List Byte} (h : Panics seg) :
    ∃ c body, seg = c :: body ∧ c ≠ CODE_STOP ∧
      ∃ n, ∀ fuel, n ≤ fuel → ∀ t,
        unmarshal fuel c (body ++ t) = Outcome.panic Panic.unhashable := by
  obtain ⟨n, hn⟩ := h
  cases seg with
  | nil =>
    have := hn n le_rfl []
    simp [Unmarshal, ReadByte] at this
  | cons c body =>
    refine ⟨c, body, rfl, ?_, n, fun fuel hf t => ?_⟩
    · intro hc
      have := hn (n + 1) (Nat.le_succ n) []
      rw [hc, List.cons_append, Unmarshal_cons, unmarshal_stop] at this
      simp at this
    · have := hn fuel hf t
      rwa [List.cons_append, Unmarshal_cons] at this

/-- The tag `'['` followed by a count `N < 2^31` enters the loop of
`readList` with `N` nil entries. -/
theorem unmarshal_list_step (f N : Nat) (hN : N < 2147483648) (rest : List Byte) :
    unmarshal (f + 2) CODE_LIST (putInt32 N ++ rest) =
      match readListLoop f N 0 (List.replicate N Value.nil) rest with
      | Outcome.ret v e r1 => Outcome.ret (Value.list v) e r1
      | Outcome.panic p => Outcome.panic p
      | Outcome.outOfFuel => Outcome.outOfFuel := by
  have hb := binaryReadInt32_putInt32 (N : Int) (by omega) (by omega) rest
  have hneg : ¬ ((N : Int) < 0) := by omega
  simp [unmarshal, readList, hb, hneg, CODE_LIST, CODE_TUPLE, CODE_STRING, CODE_UNICODE,
    CODE_TSTRING, CODE_FLOAT, CODE_NONE, CODE_INT, CODE_INT2]

/-- `readList` on a count `N < 2^31` enters its loop with `N` nil entries. -/
theorem readList_step (f N : Nat) (hN : N < 2147483648) (rest : List Byte) :
    readList (f + 1) (putInt32 N ++ rest) =
      readListLoop f N 0 (List.replicate N Value.nil) rest := by
  have hb := binaryReadInt32_putInt32 (N : Int) (by omega) (by omega) rest
  have hneg : ¬ ((N : Int) < 0) := by omega
  simp [readList, hb, hneg]

/-- The loop of `readList` returns its slice once the loop variable has
reached the count. -/
theorem readListLoop_done (f : Nat) (N : Int) (idx : Nat) (acc : List Value) (r : Reader)
    (h : ¬ (idx : Int) < N) : readListLoop (f + 1) N idx acc r = Outcome.ret acc none r := by
  simp [readListLoop, h]

/-- An iteration of the loop of `readList` on a well-formed element appends
the decoded element and goes on behind it. -/
theorem readListLoop_step_wf {seg : List Byte} {w : Value} (hw : WellFormed seg w) :
    ∃ n, ∀ f, n ≤ f → ∀ (N : Int) (idx : Nat) (acc : List Value) (rest : List Byte),
      (idx : Int) < N →
      readListLoop (f + 1) N idx acc (seg ++ rest) =
        readListLoop f N (idx + 1) (acc ++ [w]) rest := by
  obtain ⟨c, body, hseg, -, n, hn⟩ := hw.uncons
  refine ⟨n, fun f hf N idx acc rest hi => ?_⟩
  have e1 := hn f hf rest
  simp [readListLoop, hseg, ReadByte, hi, e1]

/-- An iteration of the loop of `readList` on an element that panics
panics. -/
theorem readListLoop_step_panic {seg : List Byte} (hp : Panics seg) :
    ∃ n, ∀ f, n ≤ f → ∀ (N : Int) (idx : Nat) (acc : List Value) (rest : List Byte),
      (idx : Int) < N →
      readListLoop (f + 1) N idx acc (seg ++ rest) = Outcome.panic Panic.unhashable := by
  obtain ⟨c, body, hseg, -, n, hn⟩ := hp.tagPanics
  refine ⟨n, fun f hf N idx acc rest hi => ?_⟩
  have e1 := hn f hf rest
  simp [readListLoop, hseg, ReadByte, hi, e1]

/-- On `k` well-formed elements the loop of `readList` makes `k` iterations:
it appends the `k` decoded elements in wire order and goes on behind
them. -/
theorem readListLoop_elems (segs : List (List Byte × Value))
    (hwf : ∀ e ∈ segs, WellFormed e.1 e.2) :
    ∃ n, ∀ f, n ≤ f → ∀ (N : Int) (idx : Nat) (acc : List Value) (rest : List Byte),
      (idx : Int) + segs.length ≤ N →
      readListLoop (f + segs.length) N idx acc (elemBytes segs ++ rest) =
        readListLoop f N (idx + segs.length) (acc ++ segs.map Prod.snd) rest := by
  induction segs with
  | nil => exact ⟨0, fun f _ N idx acc rest _ => by simp [elemBytes]⟩
  | cons s segs ih =>
    obtain ⟨n1, h1⟩ := readListLoop_step_wf (hwf s (List.mem_cons_self _ _))
    obtain ⟨n2, h2⟩ := ih (fun e he => hwf e (List.mem_cons_of_mem _ he))
    refine ⟨max n1 n2, fun f hf N idx acc rest hi => ?_⟩
    simp only [List.length_cons, Nat.cast_add, Nat.cast_one] at hi
    have e1 := h1 (f + segs.length) (by omega) N idx acc (elemBytes segs ++ rest) (by omega)
    have e2 := h2 f (by omega) N (idx + 1) (acc ++ [s.2]) rest (by push_cast; omega)
    simp only [elemBytes, List.append_assoc, List.length_cons, List.map_cons]
    rw [← Nat.add_assoc, e1, e2]
    simp [Nat.add_assoc, Nat.add_comm 1]

/-! ## One iteration of the loop of `readDict` -/

/-- An iteration on a well-formed hashable key and a well-formed value
assigns the pair and goes on behind it. -/
theorem readDictLoop_step_wf {kseg vseg : List Byte} {k v : Value} (hk : WellFormed kseg k)
    (hv : WellFormed vseg v) (hh : hashable k = true) :
    ∃ n, ∀ f, n ≤ f → ∀ (acc : List (Value × Value)) (rest : List Byte),
      readDictLoop (f + 1) acc (kseg ++ (vseg ++ rest)) =
        readDictLoop f (mapAssign acc k v) rest := by
  obtain ⟨ck, bk, hks, hkc, nk, hnk⟩ := hk.uncons
  obtain ⟨cv, bv, hvs, -, nv, hnv⟩ := hv.uncons
  refine ⟨max nk nv, fun f hf acc rest => ?_⟩
  have e1 := hnk f (by omega) (cv :: (bv ++ rest))
  have e2 := hnv f (by omega) rest
  simp [readDictLoop, hks, hvs, ReadByte, hkc, e1, e2, hh]

/-- An iteration on a well-formed key that is a slice or a map and a
well-formed value panics at the assignment. -/
theorem readDictLoop_step_unhashable {kseg vseg : List Byte} {k v : Value}
    (hk : WellFormed kseg k) (hv : WellFormed vseg v) (hh : hashable k = false) :
    ∃ n, ∀ f, n ≤ f → ∀ (acc : List (Value × Value)) (rest : List Byte),
      readDictLoop (f + 1) acc (kseg ++ (vseg ++ rest)) = Outcome.panic Panic.unhashable := by
  obtain ⟨ck, bk, hks, hkc, nk, hnk⟩ := hk.uncons
  obtain ⟨cv, bv, hvs, -, nv, hnv⟩ := hv.uncons
  refine ⟨max nk nv, fun f hf acc rest => ?_⟩
  have e1 := hnk f (by omega) (cv :: (bv ++ rest))
  have e2 := hnv f (by omega) rest
  simp [readDictLoop, hks, hvs, ReadByte, hkc, e1, e2, hh]

/-- An iteration on a key that panics panics. -/
theorem readDictLoop_step_key_panic {kseg : List Byte} (hk : Panics kseg) :
    ∃ n, ∀ f, n ≤ f → ∀ (acc : List (Value × Value)) (rest : List Byte),
      readDictLoop (f + 1) acc (kseg ++ rest) = Outcome.panic Panic.unhashable := by
  obtain ⟨ck, bk, hks, hkc, nk, hnk⟩ := hk.tagPanics
  refine ⟨nk, fun f hf acc rest => ?_⟩
  have e1 := hnk f hf rest
  simp [readDictLoop, hks, ReadByte, hkc, e1]

/-- An iteration on a well-formed key and a value that panics panics. -/
theorem readDictLoop_step_val_panic {kseg vseg : List Byte} {k : Value}
    (hk : WellFormed kseg k) (hv : Panics vseg) :
    ∃ n, ∀ f, n ≤ f → ∀ (acc : List (Value × Value)) (rest : List Byte),
      readDictLoop (f + 1) acc (kseg ++ (vseg ++ rest)) = Outcome.panic Panic.unhashable := by
  obtain ⟨ck, bk, hks, hkc, nk, hnk⟩ := hk.uncons
  obtain ⟨cv, bv, hvs, -, nv, hnv⟩ := hv.tagPanics
  refine ⟨max nk nv, fun f hf acc rest => ?_⟩
  have e1 := hnk f (by omega) (cv :: (bv ++ rest))
  have e2 := hnv f (by omega) rest
  simp [readDictLoop, hks, hvs, ReadByte, hkc, e1, e2]

/-- An iteration that reads the tag `'0'` at a key position ends the loop. -/
theorem readDictLoop_stop_key (f : Nat) (acc : List (Value × Value)) (rest : List Byte) :
    readDictLoop (f + 1) acc (CODE_STOP :: rest) = Outcome.ret acc none rest := by
  simp [readDictLoop, ReadByte]

/-! ## The decoder on a reference encoding -/

/-- The tag `i` followed by any four bytes is well formed. -/
theorem wellFormed_int (b0 b1 b2 b3 : Byte) :
    WellFormed [CODE_INT, b0, b1, b2, b3] (Value.int32 (toInt32 (leUint32 b0 b1 b2 b3))) := by
  refine WellFormed.of_unmarshal 1 (fun fuel hf t => ?_)
  obtain ⟨f, rfl⟩ : ∃ f, fuel = f + 1 := ⟨fuel - 1, by omega⟩
  simp [unmarshal, readInt32, binaryReadInt32, CODE_INT, CODE_NONE]

/-- The tag `g` followed by any eight bytes is well formed. -/
theorem wellFormed_float (b0 b1 b2 b3 b4 b5 b6 b7 : Byte) :
    WellFormed [CODE_FLOAT, b0, b1, b2, b3, b4, b5, b6, b7]
      (Value.float64 (leUint64 [b0, b1, b2, b3, b4, b5, b6, b7])) := by
  refine WellFormed.of_unmarshal 1 (fun fuel hf t => ?_)
  obtain ⟨f, rfl⟩ : ∃ f, fuel = f + 1 := ⟨fuel - 1, by omega⟩
  simp [unmarshal, readFloat64, Read, CODE_FLOAT, CODE_NONE, CODE_INT, CODE_INT2]

mutual

/-- On the reference encoding of an encodable value, followed by any bytes,
`Unmarshal` either returns some value without error and leaves exactly the
bytes that follow, or panics at a map assignment. -/
theorem decodes_or_panics : ∀ v : Value, encodable v = true →
    (∃ w, WellFormed (refEncode v) w) ∨ Panics (refEncode v)
  | Value.nil, _ => Or.inl ⟨Value.nil, wellFormed_refEncode Value.nil rfl⟩
  | Value.int32 v, _ => Or.inl ⟨_, wellFormed_int _ _ _ _⟩
  | Value.float64 b, _ => Or.inl ⟨_, wellFormed_float _ _ _ _ _ _ _ _⟩
  | Value.str s, h => Or.inl ⟨Value.str s, wellFormed_refEncode (Value.str s) h⟩
  | Value.list xs, h => by
    simp only [encodable, Bool.and_eq_true, decide_eq_true_eq] at h
    have heq : ∀ t, refEncode (Value.list xs) ++ t =
        CODE_LIST :: (putInt32 xs.length ++ (refEncodeList xs ++ t)) := by
      intro t; simp [refEncode]
    rcases decodes_list xs h.2 with ⟨ws, n, hn⟩ | ⟨n, hn⟩
    · left
      refine ⟨Value.list (List.replicate xs.length Value.nil ++ ws), n + 2, fun fuel hf t => ?_⟩
      obtain ⟨f, rfl⟩ : ∃ f, fuel = f + 2 := ⟨fuel - 2, by omega⟩
      have e1 := hn f (by omega) xs.length 0 (List.replicate xs.length Value.nil) t (by simp)
      rw [heq, Unmarshal_cons, unmarshal_list_step f xs.length h.1, e1]
    · right
      refine ⟨n + 2, fun fuel hf t => ?_⟩
      obtain ⟨f, rfl⟩ : ∃ f, fuel = f + 2 := ⟨fuel - 2, by omega⟩
      have e1 := hn f (by omega) xs.length 0 (List.replicate xs.length Value.nil) t (by simp)
      rw [heq, Unmarshal_cons, unmarshal_list_step f xs.length h.1, e1]
  | Value.dict ps, h => by
    simp only [encodable] at h
    have heq : ∀ t, refEncode (Value.dict ps) ++ t =
        CODE_DICT :: (refEncodePairs ps ++ CODE_STOP :: t) := by
      intro t; simp [refEncode]
    rcases decodes_pairs ps h with ⟨wps, n, hn⟩ | ⟨n, hn⟩
    · left
      refine ⟨Value.dict (assignAll [] wps), n + 2, fun fuel hf t => ?_⟩
      obtain ⟨f, rfl⟩ : ∃ f, fuel = f + 2 := ⟨fuel - 2, by omega⟩
      rw [heq, Unmarshal_cons, unmarshal_dict, hn f (by omega)]
    · right
      refine ⟨n + 2, fun fuel hf t => ?_⟩
      obtain ⟨f, rfl⟩ : ∃ f, fuel = f + 2 := ⟨fuel - 2, by omega⟩
      rw [heq, Unmarshal_cons, unmarshal_dict, hn f (by omega)]

/-- On the reference encodings of encodable elements, the loop of `readList`
either appends one decoded value per element and leaves exactly the bytes
that follow, or panics at a map assignment. -/
theorem decodes_list : ∀ xs : List Value, encodableList xs = true →
    (∃ ws n, ∀ f, n ≤ f → ∀ (N : Int) (idx : Nat) (acc : List Value) (t : List Byte),
      (idx : Int) + xs.length = N →
      readListLoop f N idx acc (refEncodeList xs ++ t) = Outcome.ret (acc ++ ws) none t) ∨
    (∃ n, ∀ f, n ≤ f → ∀ (N : Int) (idx : Nat) (acc : List Value) (t : List Byte),
      (idx : Int) + xs.length = N →
      readListLoop f N idx acc (refEncodeList xs ++ t) = Outcome.panic Panic.unhashable)
  | [], _ => Or.inl ⟨[], 1, fun fuel hf N idx acc t hi => by
      obtain ⟨f, rfl⟩ : ∃ f, fuel = f + 1 := ⟨fuel - 1, by omega⟩
      simp only [List.length_nil, Nat.cast_zero, add_zero] at hi
      simp only [refEncodeList, List.nil_append, List.append_nil]
      exact readListLoop_done f N idx acc t (by omega)⟩
  | x :: xs, h => by
    simp only [encodableList, Bool.and_eq_true] at h
    rcases decodes_or_panics x h.1 with ⟨w, hw⟩ | hp
    · obtain ⟨n1, h1⟩ := readListLoop_step_wf hw
      rcases decodes_list xs h.2 with ⟨ws, n2, h2⟩ | ⟨n2, h2⟩
      · left
        refine ⟨w :: ws, max n1 n2 + 1, fun fuel hf N idx acc t hi => ?_⟩
        obtain ⟨f, rfl⟩ : ∃ f, fuel = f + 1 := ⟨fuel - 1, by omega⟩
        simp only [List.length_cons, Nat.cast_add, Nat.cast_one] at hi
        simp only [refEncodeList, List.append_assoc]
        rw [h1 f (by omega) N idx acc _ (by omega),
          h2 f (by omega) N (idx + 1) (acc ++ [w]) t (by push_cast; omega)]
        simp
      · right
        refine ⟨max n1 n2 + 1, fun fuel hf N idx acc t hi => ?_⟩
        obtain ⟨f, rfl⟩ : ∃ f, fuel = f + 1 := ⟨fuel - 1, by omega⟩
        simp only [List.length_cons, Nat.cast_add, Nat.cast_one] at hi
        simp only [refEncodeList, List.append_assoc]
        rw [h1 f (by omega) N idx acc _ (by omega),
          h2 f (by omega) N (idx + 1) (acc ++ [w]) t (by push_cast; omega)]
    · obtain ⟨n1, h1⟩ := readListLoop_step_panic hp
      right
      refine ⟨n1 + 1, fun fuel hf N idx acc t hi => ?_⟩
      obtain ⟨f, rfl⟩ : ∃ f, fuel = f + 1 := ⟨fuel - 1, by omega⟩
      simp only [List.length_cons, Nat.cast_add, Nat.cast_one] at hi
      simp only [refEncodeList, List.append_assoc]
      exact h1 f (by omega) N idx acc _ (by omega)

/-- On the reference encodings of encodable pairs and the tag `'0'`, the loop
of `readDict` either assigns one pair per pair on the wire and leaves
exactly the bytes after the tag `'0'`, or panics at a map assignment. -/
theorem decodes_pairs : ∀ ps : List (Value × Value), encodablePairs ps = true →
    (∃ wps n, ∀ f, n ≤ f → ∀ (acc : List (Value × Value)) (t : List Byte),
      readDictLoop f acc (refEncodePairs ps ++ CODE_STOP :: t) =
        Outcome.ret (assignAll acc wps) none t) ∨
    (∃ n, ∀ f, n ≤ f → ∀ (acc : List (Value × Value)) (t : List Byte),
      readDictLoop f acc (refEncodePairs ps ++ CODE_STOP :: t) =
        Outcome.panic Panic.unhashable)
  | [], _ => Or.inl ⟨[], 1, fun fuel hf acc t => by
      obtain ⟨f, rfl⟩ : ∃ f, fuel = f + 1 := ⟨fuel - 1, by omega⟩
      simp only [refEncodePairs, List.nil_append, assignAll]
      exact readDictLoop_stop_key f acc t⟩
  | (k, v) :: ps, h => by
    simp only [encodablePairs, Bool.and_eq_true] at h
    rcases decodes_or_panics k h.1.1 with ⟨wk, hk⟩ | hkp
    · rcases decodes_or_panics v h.1.2 with ⟨wv, hv⟩ | hvp
      · cases hh : hashable wk with
        | true =>
          obtain ⟨n1, h1⟩ := readDictLoop_step_wf hk hv hh
          rcases decodes_pairs ps h.2 with ⟨wps, n2, h2⟩ | ⟨n2, h2⟩
          · left
            refine ⟨WirePair.mk (refEncode k) wk (refEncode v) wv :: wps, max n1 n2 + 1,
              fun fuel hf acc t => ?_⟩
            obtain ⟨f, rfl⟩ : ∃ f, fuel = f + 1 := ⟨fuel - 1, by omega⟩
            simp only [refEncodePairs, List.append_assoc, assignAll]
            rw [h1 f (by omega), h2 f (by omega)]
          · right
            refine ⟨max n1 n2 + 1, fun fuel hf acc t => ?_⟩
            obtain ⟨f, rfl⟩ : ∃ f, fuel = f + 1 := ⟨fuel - 1, by omega⟩
            simp only [refEncodePairs, List.append_assoc]
            rw [h1 f (by omega), h2 f (by omega)]
        | false =>
          obtain ⟨n1, h1⟩ := readDictLoop_step_unhashable hk hv hh
          right
          refine ⟨n1 + 1, fun fuel hf acc t => ?_⟩
          obtain ⟨f, rfl⟩ : ∃ f, fuel = f + 1 := ⟨fuel - 1, by omega⟩
          simp only [refEncodePairs, List.append_assoc]
          exact h1 f (by omega) acc _
      · obtain ⟨n1, h1⟩ := readDictLoop_step_val_panic hk hvp
        right
        refine ⟨n1 + 1, fun fuel hf acc t => ?_⟩
        obtain ⟨f, rfl⟩ : ∃ f, fuel = f + 1 := ⟨fuel - 1, by omega⟩
        simp only [refEncodePairs, List.append_assoc]
        exact h1 f (by omega) acc _
    · obtain ⟨n1, h1⟩ := readDictLoop_step_key_panic hkp
      right
      refine ⟨n1 + 1, fun fuel hf acc t => ?_⟩
      obtain ⟨f, rfl⟩ : ∃ f, fuel = f + 1 := ⟨fuel - 1, by omega⟩
      simp only [refEncodePairs, List.append_assoc]
      exact h1 f (by omega) acc _

end

/-! ## Maps with scalar keys -/

/-- On a scalar key, Go's `==` is equality. -/
theorem keyEq_iff_eq {a b : Value} (ha : scalarKey a = true) : keyEq a b = true ↔ a = b := by
  cases a <;> cases b <;> simp_all [keyEq, scalarKey]

/-- A scalar key is hashable. -/
theorem hashable_of_scalarKey {a : Value} (ha : scalarKey a = true) : hashable a = true := by
  cases a <;> simp_all [hashable, scalarKey]

/-- Among scalar keys, a key equals one of them under Go's `==` exactly when
it is one of them. -/
theorem any_keyEq_iff (ks : List Value) (k : Value) (hks : ∀ s ∈ ks, scalarKey s = true) :
    ks.any (fun s => keyEq s k) = true ↔ k ∈ ks := by
  simp only [List.any_eq_true]
  constructor
  · rintro ⟨s, hs, he⟩
    rw [keyEq_iff_eq (hks s hs)] at he
    exact he ▸ hs
  · intro hk
    exact ⟨k, hk, (keyEq_iff_eq (hks k hk)).mpr rfl⟩

/-- The keys of a map after `m[k] = v`: the same keys when `k` is one of
them, one more key at the end otherwise. -/
theorem mapAssign_keys (m : List (Value × Value)) (k v : Value)
    (hm : ∀ e ∈ m, scalarKey e.1 = true) :
    (k ∈ m.map Prod.fst → (mapAssign m k v).map Prod.fst = m.map Prod.fst) ∧
      (k ∉ m.map Prod.fst → (mapAssign m k v).map Prod.fst = m.map Prod.fst ++ [k]) := by
  induction m with
  | nil => simp [mapAssign]
  | cons e m ih =>
    obtain ⟨k0, v0⟩ := e
    have h0 : scalarKey k0 = true := hm (k0, v0) (List.mem_cons_self _ _)
    obtain ⟨ih1, ih2⟩ := ih (fun e he => hm e (List.mem_cons_of_mem _ he))
    by_cases hk : k0 = k
    · subst hk
      have he : keyEq k0 k0 = true := (keyEq_iff_eq h0).mpr rfl
      simp [mapAssign, he]
    · have he : keyEq k0 k = false := by
        rw [Bool.eq_false_iff]
        exact fun h => hk ((keyEq_iff_eq h0).mp h)
      simp only [mapAssign, he, Bool.false_eq_true, if_false, List.map_cons, List.mem_cons,
        List.cons_append, List.cons.injEq, true_and, not_or]
      constructor
      · rintro (h | h)
        · exact absurd h.symm hk
        · exact ih1 h
      · rintro ⟨-, h⟩
        exact ih2 h

/-- The entries of a map with distinct scalar keys after `m[k] = v`: the
entry `(k, v)` and the entries of `m` under the other keys. -/
theorem mapAssign_mem_iff (m : List (Value × Value)) (k v : Value)
    (hm : ∀ e ∈ m, scalarKey e.1 = true) (hnd : (m.map Prod.fst).Nodup) (k1 v1 : Value) :
    (k1, v1) ∈ mapAssign m k v ↔ (k1 = k ∧ v1 = v) ∨ (k1 ≠ k ∧ (k1, v1) ∈ m) := by
  induction m with
  | nil => simp [mapAssign]
  | cons e m ih =>
    obtain ⟨k0, v0⟩ := e
    have h0 : scalarKey k0 = true := hm (k0, v0) (List.mem_cons_self _ _)
    simp only [List.map_cons, List.nodup_cons, List.mem_map, Prod.exists, exists_and_right,
      exists_eq_right, not_exists] at hnd
    have ih1 := ih (fun e he => hm e (List.mem_cons_of_mem _ he)) hnd.2
    by_cases hk : k0 = k
    · subst hk
      have he : keyEq k0 k0 = true := (keyEq_iff_eq h0).mpr rfl
      simp only [mapAssign, he, if_true, List.mem_cons, Prod.mk.injEq]
      constructor
      · rintro (h | h)
        · exact Or.inl h
        · refine Or.inr ⟨?_, Or.inr h⟩
          rintro rfl
          exact hnd.1 v1 h
      · rintro (h | ⟨h1, h2 | h2⟩)
        · exact Or.inl h
        · exact absurd h2.1 h1
        · exact Or.inr h2
    · have he : keyEq k0 k = false := by
        rw [Bool.eq_false_iff]
        exact fun h => hk ((keyEq_iff_eq h0).mp h)
      simp only [mapAssign, he, Bool.false_eq_true, if_false, List.mem_cons, Prod.mk.injEq,
        ih1]
      constructor
      · rintro (h | h | h)
        · exact Or.inr ⟨by rw [h.1]; exact hk, Or.inl h⟩
        · exact Or.inl h
        · exact Or.inr ⟨h.1, Or.inr h.2⟩
      · rintro (h | ⟨h1, h2 | h2⟩)
        · exact Or.inr (Or.inl h)
        · exact Or.inl h2
        · exact Or.inr (Or.inr ⟨h1, h2⟩)

/-- An assignment under a scalar key keeps the keys scalar and distinct. -/
theorem mapAssign_scalar_nodup (m : List (Value × Value)) (k v : Value)
    (hm : ∀ e ∈ m, scalarKey e.1 = true) (hnd : (m.map Prod.fst).Nodup)
    (hk : scalarKey k = true) :
    (∀ e ∈ mapAssign m k v, scalarKey e.1 = true) ∧ ((mapAssign m k v).map Prod.fst).Nodup := by
  constructor
  · rintro ⟨k1, v1⟩ he
    rcases (mapAssign_mem_iff m k v hm hnd k1 v1).mp he with ⟨rfl, -⟩ | ⟨-, h⟩
    · exact hk
    · exact hm _ h
  · by_cases hmem : k ∈ m.map Prod.fst
    · rw [(mapAssign_keys m k v hm).1 hmem]
      exact hnd
    · rw [(mapAssign_keys m k v hm).2 hmem]
      exact List.Nodup.append hnd (List.nodup_singleton k) (by
        intro a ha hb
        rw [List.mem_singleton] at hb
        exact hmem (hb ▸ ha))

/-- The last value of a key among wire pairs, pair by pair: it is the last
value among the later pairs, or the value of the first pair when no later
pair has the key. -/
theorem last_value_cons (p : WirePair) (ps : List WirePair) (k v : Value) :
    (∃ pre q post, p :: ps = pre ++ q :: post ∧ q.key = k ∧ q.val = v ∧
        ∀ x ∈ post, x.key ≠ k) ↔
      (∃ pre q post, ps = pre ++ q :: post ∧ q.key = k ∧ q.val = v ∧ ∀ x ∈ post, x.key ≠ k) ∨
        (p.key = k ∧ p.val = v ∧ ∀ x ∈ ps, x.key ≠ k) := by
  constructor
  · rintro ⟨pre, q, post, heq, hk, hv, hpost⟩
    cases pre with
    | nil =>
      simp only [List.nil_append, List.cons.injEq] at heq
      obtain ⟨rfl, rfl⟩ := heq
      exact Or.inr ⟨hk, hv, hpost⟩
    | cons a pre =>
      simp only [List.cons_append, List.cons.injEq] at heq
      exact Or.inl ⟨pre, q, post, heq.2, hk, hv, hpost⟩
  · rintro (⟨pre, q, post, heq, hk, hv, hpost⟩ | ⟨hk, hv, hpost⟩)
    · exact ⟨p :: pre, q, post, by simp [heq], hk, hv, hpost⟩
    · exact ⟨[], p, ps, rfl, hk, hv, hpost⟩

/-- The map after the assignments of wire pairs with scalar keys, started
from a map with distinct scalar keys: its keys are distinct; an entry is the
last pair of its key on the wire, or an entry of the starting map whose key
is not on the wire; its keys are those of the starting map and of the wire;
the assignments add one entry per distinct new key. -/
theorem assignAll_scalar (ps : List WirePair) :
    ∀ acc : List (Value × Value), (∀ e ∈ acc, scalarKey e.1 = true) →
      (acc.map Prod.fst).Nodup → (∀ p ∈ ps, scalarKey p.key = true) →
      ((assignAll acc ps).map Prod.fst).Nodup ∧
      (∀ k v, (k, v) ∈ assignAll acc ps ↔
        (∃ pre q post, ps = pre ++ q :: post ∧ q.key = k ∧ q.val = v ∧
          ∀ x ∈ post, x.key ≠ k) ∨ ((k, v) ∈ acc ∧ ∀ x ∈ ps, x.key ≠ k)) ∧
      (∀ k, k ∈ (assignAll acc ps).map Prod.fst ↔
        k ∈ acc.map Prod.fst ∨ k ∈ ps.map WirePair.key) ∧
      (assignAll acc ps).length =
        acc.length + countDistinctKeys (acc.map Prod.fst) (ps.map WirePair.key) := by
  induction ps with
  | nil =>
    intro acc _ hnd _
    refine ⟨hnd, fun k v => ?_, fun k => ?_, ?_⟩
    · simp [assignAll]
    · simp [assignAll]
    · simp [assignAll, countDistinctKeys]
  | cons p ps ih =>
    intro acc hacc hnd hps
    have hp : scalarKey p.key = true := hps p (List.mem_cons_self _ _)
    obtain ⟨hs1, hn1⟩ := mapAssign_scalar_nodup acc p.key p.val hacc hnd hp
    obtain ⟨i1, i2, i3, i4⟩ := ih (mapAssign acc p.key p.val) hs1 hn1
      (fun q hq => hps q (List.mem_cons_of_mem _ hq))
    have hkeys : ∀ s ∈ acc.map Prod.fst, scalarKey s = true := by
      intro s hs
      obtain ⟨e, he, rfl⟩ := List.mem_map.mp hs
      exact hacc e he
    refine ⟨i1, fun k v => ?_, fun k => ?_, ?_⟩
    · simp only [assignAll]
      rw [i2, last_value_cons, mapAssign_mem_iff acc p.key p.val hacc hnd]
      simp only [List.mem_cons, forall_eq_or_imp]
      constructor
      · rintro (h | ⟨⟨rfl, rfl⟩ | ⟨h1, h2⟩, h3⟩)
        · exact Or.inl (Or.inl h)
        · exact Or.inl (Or.inr ⟨rfl, rfl, h3⟩)
        · exact Or.inr ⟨h2, fun h => h1 h.symm, h3⟩
      · rintro ((h | ⟨h1, h2, h3⟩) | ⟨h1, h2, h3⟩)
        · exact Or.inl h
        · exact Or.inr ⟨Or.inl ⟨h1.symm, h2.symm⟩, h3⟩
        · exact Or.inr ⟨Or.inr ⟨fun h => h2 h.symm, h1⟩, h3⟩
    · simp only [assignAll]
      rw [i3]
      by_cases hmem : p.key ∈ acc.map Prod.fst
      · rw [(mapAssign_keys acc p.key p.val hacc).1 hmem]
        simp only [List.map_cons, List.mem_cons]
        constructor
        · rintro (h | h)
          · exact Or.inl h
          · exact Or.inr (Or.inr h)
        · rintro (h | rfl | h)
          · exact Or.inl h
          · exact Or.inl hmem
          · exact Or.inr h
      · rw [(mapAssign_keys acc p.key p.val hacc).2 hmem]
        simp only [List.map_cons, List.mem_cons, List.mem_append, List.mem_singleton]
        tauto
    · simp only [assignAll, List.map_cons, countDistinctKeys]
      rw [i4]
      by_cases hmem : p.key ∈ acc.map Prod.fst
      · have hany := (any_keyEq_iff _ p.key hkeys).mpr hmem
        have hlen : (mapAssign acc p.key p.val).length = acc.length := by
          have := congrArg List.length ((mapAssign_keys acc p.key p.val hacc).1 hmem)
          simpa using this
        rw [if_pos hany, (mapAssign_keys acc p.key p.val hacc).1 hmem, hlen]
      · have hany : ¬ (List.any (acc.map Prod.fst) (fun s => keyEq s p.key) = true) :=
          fun h => hmem ((any_keyEq_iff _ p.key hkeys).mp h)
        have hlen : (mapAssign acc p.key p.val).length = acc.length + 1 := by
          have := congrArg List.length ((mapAssign_keys acc p.key p.val hacc).2 hmem)
          simpa using this
        rw [if_neg hany, (mapAssign_keys acc p.key p.val hacc).2 hmem, hlen]
        omega

/-! ## The claims -/

/-- C1, evaluated at the failing input `[` `01 00 00 00` `i` `05 00 00 00`:
`Unmarshal` returns a sequence of length 2, the nil entry that
`make([]interface{}, 1)` allocated followed by the decoded element, and not
the sequence of length 1 that holds the element alone. -/
theorem readList_keeps_placeholders :
    ∃ n, ∀ fuel, n ≤ fuel →
      Unmarshal fuel [0x5b, 1, 0, 0, 0, 0x69, 5, 0, 0, 0] =
        Outcome.ret (Value.list [Value.nil, Value.int32 5]) none [] :=
  Unmarshal_from (n := 4) rfl (by simp)

/-- C2, as stated, fails: the reference encoding of the mapping with the
pairs `(1, 10)` and `(1, 20)` is never decoded to that mapping, because a Go
map holds one entry per key. -/
theorem roundtrip_fails_on_repeated_key :
    ¬ ∃ fuel r,
      Unmarshal fuel
          (refEncode (Value.dict [(Value.int32 1, Value.int32 10),
            (Value.int32 1, Value.int32 20)])) =
        Outcome.ret (Value.dict [(Value.int32 1, Value.int32 10),
          (Value.int32 1, Value.int32 20)]) none r := by
  rintro ⟨fuel, r, h⟩
  have e : Unmarshal 6
      (refEncode (Value.dict [(Value.int32 1, Value.int32 10),
        (Value.int32 1, Value.int32 20)])) =
      Outcome.ret (Value.dict [(Value.int32 1, Value.int32 20)]) none [] := rfl
  rcases Unmarshal_det e (by simp) fuel with h1 | h1 <;> rw [h1] at h <;> simp at h

/-- C2, amended: for every canonical value tree (null, 32-bit integers, float
bit patterns, byte strings, empty sequences, mappings with hashable and
pairwise different keys), `Unmarshal` on the reference encoding succeeds and
returns the value, reading all of the encoding. -/
theorem roundtrip_canonical (v : Value) (h : canonical v = true) :
    ∃ n, ∀ fuel, n ≤ fuel → Unmarshal fuel (refEncode v) = Outcome.ret v none [] := by
  obtain ⟨n, hn⟩ := wellFormed_refEncode v h
  exact ⟨n, fun fuel hf => by simpa using hn fuel hf []⟩

/-- C2, amended, at a mapping of four pairs with a null, an integer, a float
and a string key and with a nested mapping and an empty sequence as
values. -/
theorem roundtrip_canonical_witness :
    canonical (Value.dict [(Value.nil, Value.int32 (-7)),
        (Value.int32 1, Value.str [0x61, 0x62, 0x63]),
        (Value.float64 4611686018427387904, Value.dict [(Value.str [0x78], Value.list [])]),
        (Value.str [], Value.float64 0)]) = true ∧
      ∃ n, ∀ fuel, n ≤ fuel →
        Unmarshal fuel (refEncode (Value.dict [(Value.nil, Value.int32 (-7)),
          (Value.int32 1, Value.str [0x61, 0x62, 0x63]),
          (Value.float64 4611686018427387904, Value.dict [(Value.str [0x78], Value.list [])]),
          (Value.str [], Value.float64 0)])) =
        Outcome.ret (Value.dict [(Value.nil, Value.int32 (-7)),
          (Value.int32 1, Value.str [0x61, 0x62, 0x63]),
          (Value.float64 4611686018427387904, Value.dict [(Value.str [0x78], Value.list [])]),
          (Value.str [], Value.float64 0)]) none [] :=
  ⟨by decide, roundtrip_canonical _ (by decide)⟩

/-- C3, evaluated at three failing inputs, each a proper prefix of a
reference encoding: the string `abc` cut after `a` decodes without error to
`a` and two zero bytes; the sequence of the integer 5 cut after its count
decodes without error to one nil entry; the mapping from 1 to null cut after
its key decodes without error to the empty map. -/
theorem truncated_input_accepted :
    (refEncode (Value.str [0x61, 0x62, 0x63]) = [0x73, 3, 0, 0, 0, 0x61] ++ [0x62, 0x63] ∧
      ∃ n, ∀ fuel, n ≤ fuel →
        Unmarshal fuel [0x73, 3, 0, 0, 0, 0x61] =
          Outcome.ret (Value.str [0x61, 0, 0]) none []) ∧
    (refEncode (Value.list [Value.int32 5]) = [0x5b, 1, 0, 0, 0] ++ [0x69, 5, 0, 0, 0] ∧
      ∃ n, ∀ fuel, n ≤ fuel →
        Unmarshal fuel [0x5b, 1, 0, 0, 0] = Outcome.ret (Value.list [Value.nil]) none []) ∧
    (refEncode (Value.dict [(Value.int32 1, Value.nil)]) =
        [0x7b, 0x69, 1, 0, 0, 0] ++ [0x4e, 0x30] ∧
      ∃ n, ∀ fuel, n ≤ fuel →
        Unmarshal fuel [0x7b, 0x69, 1, 0, 0, 0] = Outcome.ret (Value.dict []) none []) :=
  ⟨⟨rfl, Unmarshal_from (n := 4) rfl (by simp)⟩,
    ⟨rfl, Unmarshal_from (n := 4) rfl (by simp)⟩,
    ⟨rfl, Unmarshal_from (n := 4) rfl (by simp)⟩⟩

/-- C4, as stated, fails: on the mapping input with the pairs `(1, 10)` and
`(1, 20)`, `Unmarshal` returns the map with the single entry `(1, 20)`, and
no returned map holds the earlier pair `(1, 10)`. -/
theorem readDict_overwrites_repeated_key :
    (∃ n, ∀ fuel, n ≤ fuel →
      Unmarshal fuel [0x7b, 0x69, 1, 0, 0, 0, 0x69, 10, 0, 0, 0,
          0x69, 1, 0, 0, 0, 0x69, 20, 0, 0, 0, 0x30] =
        Outcome.ret (Value.dict [(Value.int32 1, Value.int32 20)]) none []) ∧
    ¬ ∃ fuel m r,
      Unmarshal fuel [0x7b, 0x69, 1, 0, 0, 0, 0x69, 10, 0, 0, 0,
          0x69, 1, 0, 0, 0, 0x69, 20, 0, 0, 0, 0x30] =
        Outcome.ret (Value.dict m) none r ∧ (Value.int32 1, Value.int32 10) ∈ m := by
  have e : Unmarshal 6 [0x7b, 0x69, 1, 0, 0, 0, 0x69, 10, 0, 0, 0,
      0x69, 1, 0, 0, 0, 0x69, 20, 0, 0, 0, 0x30] =
      Outcome.ret (Value.dict [(Value.int32 1, Value.int32 20)]) none [] := rfl
  refine ⟨Unmarshal_from e (by simp), ?_⟩
  rintro ⟨fuel, m, r, h, hm⟩
  rcases Unmarshal_det e (by simp) fuel with h1 | h1 <;> rw [h1] at h <;> simp at h
  obtain ⟨rfl, -⟩ := h
  simp at hm

/-- C4, amended: on a well-formed mapping input whose keys are hashable and
pairwise different under Go's `==`, `Unmarshal` returns without error the map
that holds exactly one entry per pair on the wire, the pairs in wire order,
and leaves what follows the terminator. -/
theorem readDict_keeps_distinct_pairs (ps : List WirePair)
    (hwf : ∀ p ∈ ps, WellFormed p.keyBytes p.key ∧ WellFormed p.valBytes p.val)
    (hh : ∀ p ∈ ps, hashable p.key = true)
    (hd : distinctKeys (wireEntries ps) = true) :
    ∃ n, ∀ fuel, n ≤ fuel → ∀ t : List Byte,
      Unmarshal fuel (CODE_DICT :: (wireBytes ps ++ CODE_STOP :: t)) =
        Outcome.ret (Value.dict (wireEntries ps)) none t := by
  obtain ⟨n, hn⟩ := Unmarshal_dict_wire ps hwf hh
  have ha := assignAll_distinct ps [] (fun e he => by cases he) hd
  rw [List.nil_append] at ha
  rw [ha] at hn
  exact ⟨n, hn⟩

/-- C4, amended, at the mapping input `{` `i 01 00 00 00` `s 01 00 00 00 x`
`N` `[ 00 00 00 00` `0`: the map holds the two pairs of the wire. -/
theorem readDict_keeps_distinct_pairs_witness :
    ∃ n, ∀ fuel, n ≤ fuel → ∀ t : List Byte,
      Unmarshal fuel
          (CODE_DICT ::
            (wireBytes
                [WirePair.mk [0x69, 1, 0, 0, 0] (Value.int32 1)
                    [0x73, 1, 0, 0, 0, 0x78] (Value.str [0x78]),
                  WirePair.mk [0x4e] Value.nil [0x5b, 0, 0, 0, 0] (Value.list [])] ++
              CODE_STOP :: t)) =
        Outcome.ret
          (Value.dict
            (wireEntries
              [WirePair.mk [0x69, 1, 0, 0, 0] (Value.int32 1)
                  [0x73, 1, 0, 0, 0, 0x78] (Value.str [0x78]),
                WirePair.mk [0x4e] Value.nil [0x5b, 0, 0, 0, 0] (Value.list [])]))
          none t :=
  readDict_keeps_distinct_pairs _
    (fun p hp => by
      simp only [List.mem_cons, List.mem_singleton, List.not_mem_nil, or_false] at hp
      rcases hp with rfl | rfl
      · exact ⟨wellFormed_refEncode (Value.int32 1) rfl,
          wellFormed_refEncode (Value.str [0x78]) rfl⟩
      · exact ⟨wellFormed_refEncode Value.nil rfl, wellFormed_refEncode (Value.list []) rfl⟩)
    (fun p hp => by
      simp only [List.mem_cons, List.mem_singleton, List.not_mem_nil, or_false] at hp
      rcases hp with rfl | rfl <;> rfl)
    (by decide)

/-- C5, evaluated at the failing inputs `[` `ff ff ff ff` and `(`
`00 00 00 80`, whose counts are -1 and -2147483648: the allocation
`make([]interface{}, int(listSize))` panics, no error is returned. -/
theorem readList_negative_count_panics :
    (∃ n, ∀ fuel, n ≤ fuel →
      Unmarshal fuel [0x5b, 0xff, 0xff, 0xff, 0xff] = Outcome.panic Panic.makesliceLen) ∧
    (∃ n, ∀ fuel, n ≤ fuel →
      Unmarshal fuel [0x28, 0, 0, 0, 0x80] = Outcome.panic Panic.makesliceLen) :=
  ⟨Unmarshal_from (n := 3) rfl (by simp), Unmarshal_from (n := 3) rfl (by simp)⟩

/-- C6, evaluated at the failing inputs `s`, `u` and `t` followed by
`ff ff ff ff`, whose length is -1: the length reaches the allocation
`make([]byte, strLen)`, which panics; no error is returned. -/
theorem readString_negative_length_panics :
    (∃ n, ∀ fuel, n ≤ fuel →
      Unmarshal fuel [0x73, 0xff, 0xff, 0xff, 0xff] = Outcome.panic Panic.makesliceLen) ∧
    (∃ n, ∀ fuel, n ≤ fuel →
      Unmarshal fuel [0x75, 0xff, 0xff, 0xff, 0xff] = Outcome.panic Panic.makesliceLen) ∧
    (∃ n, ∀ fuel, n ≤ fuel →
      Unmarshal fuel [0x74, 0xff, 0xff, 0xff, 0xff] = Outcome.panic Panic.makesliceLen) :=
  ⟨Unmarshal_from (n := 3) rfl (by simp), Unmarshal_from (n := 3) rfl (by simp),
    Unmarshal_from (n := 3) rfl (by simp)⟩

/-- C7, evaluated at the failing inputs `u` `02 00 00 00` (no payload byte
left) and `t` `05 00 00 00` `h` `i` (two of five payload bytes left): the
decoder returns, with a nil error, a string of the declared length padded
with zero bytes. -/
theorem readString_pads_short_payload :
    (∃ n, ∀ fuel, n ≤ fuel →
      Unmarshal fuel [0x75, 2, 0, 0, 0] = Outcome.ret (Value.str [0, 0]) none []) ∧
    (∃ n, ∀ fuel, n ≤ fuel →
      Unmarshal fuel [0x74, 5, 0, 0, 0, 0x68, 0x69] =
        Outcome.ret (Value.str [0x68, 0x69, 0, 0, 0]) none []) :=
  ⟨Unmarshal_from (n := 3) rfl (by simp), Unmarshal_from (n := 3) rfl (by simp)⟩

/-- C8, evaluated at the failing inputs `[` `01 00 00 00` (the source ends
before the tag of element 0) and `[` `02 00 00 00` `i` `07 00 00 00` (it ends
before the tag of element 1): the sequence decoder returns the slice built so
far with a nil error. -/
theorem readList_swallows_missing_element :
    (∃ n, ∀ fuel, n ≤ fuel →
      readList fuel [1, 0, 0, 0] = Outcome.ret [Value.nil] none []) ∧
    (∃ n, ∀ fuel, n ≤ fuel →
      Unmarshal fuel [0x5b, 2, 0, 0, 0, 0x69, 7, 0, 0, 0] =
        Outcome.ret (Value.list [Value.nil, Value.nil, Value.int32 7]) none []) := by
  refine ⟨⟨2, fun fuel hf => ?_⟩, Unmarshal_from (n := 4) rfl (by simp)⟩
  obtain ⟨f, rfl⟩ : ∃ f, fuel = f + 2 := ⟨fuel - 2, by omega⟩
  simp [readList, readListLoop, binaryReadInt32, ReadByte, toInt32, leUint32]

/-- C9, evaluated at the failing inputs `{` (the source ends at the first
key-tag read) and `{` `i` `01 00 00 00` (it ends at the value-tag read): the
mapping decoder returns the empty map with a nil error although it never
read the tag `'0'`. -/
theorem readDict_succeeds_without_sentinel :
    (∃ n, ∀ fuel, n ≤ fuel →
      readDict fuel [] = Outcome.ret [] none []) ∧
    (∃ n, ∀ fuel, n ≤ fuel →
      Unmarshal fuel [0x7b, 0x69, 1, 0, 0, 0] = Outcome.ret (Value.dict []) none []) := by
  refine ⟨⟨2, fun fuel hf => ?_⟩, Unmarshal_from (n := 4) rfl (by simp)⟩
  obtain ⟨f, rfl⟩ : ∃ f, fuel = f + 2 := ⟨fuel - 2, by omega⟩
  simp [readDict, readDictLoop, ReadByte]

/-- C10, evaluated at the failing input `{` `[` `00 00 00 00` `N` `0`: the
key `[ 00 00 00 00` is a well-formed empty sequence and the value `N` is
well formed, yet the unguarded assignment `ret[key] = val` panics (a slice
is not hashable): `Unmarshal` panics for every large enough recursion bound
and returns for none, so no result with that key is produced. -/
theorem readDict_panics_on_sequence_key :
    WellFormed [0x5b, 0, 0, 0, 0] (Value.list []) ∧ WellFormed [0x4e] Value.nil ∧
    (∃ n, ∀ fuel, n ≤ fuel →
      Unmarshal fuel [0x7b, 0x5b, 0, 0, 0, 0, 0x4e, 0x30] = Outcome.panic Panic.unhashable) ∧
    ¬ ∃ fuel v e r,
      Unmarshal fuel [0x7b, 0x5b, 0, 0, 0, 0, 0x4e, 0x30] = Outcome.ret v e r := by
  have e : Unmarshal 8 [0x7b, 0x5b, 0, 0, 0, 0, 0x4e, 0x30] =
      Outcome.panic Panic.unhashable := rfl
  refine ⟨wellFormed_refEncode (Value.list []) rfl, wellFormed_refEncode Value.nil rfl,
    Unmarshal_from e (by simp), ?_⟩
  rintro ⟨fuel, v, er, r, h⟩
  rcases Unmarshal_det e (by simp) fuel with h1 | h1 <;> rw [h1] at h <;> simp at h

/-- Hashable keys are accepted: on a well-formed mapping input whose keys are
hashable (null, integers, floats, strings), whatever the values are,
`Unmarshal` returns a map without error,
and for the key of every pair on the wire the map has an entry whose key is
that key or equals it under Go's `==`. -/
theorem readDict_hashable_keys (ps : List WirePair)
    (hwf : ∀ p ∈ ps, WellFormed p.keyBytes p.key ∧ WellFormed p.valBytes p.val)
    (hh : ∀ p ∈ ps, hashable p.key = true) :
    (∃ n, ∀ fuel, n ≤ fuel → ∀ t : List Byte,
      Unmarshal fuel (CODE_DICT :: (wireBytes ps ++ CODE_STOP :: t)) =
        Outcome.ret (Value.dict (assignAll [] ps)) none t) ∧
    ∀ p ∈ ps, ∃ e ∈ assignAll [] ps, e.1 = p.key ∨ keyEq e.1 p.key = true :=
  ⟨Unmarshal_dict_wire ps hwf hh, assignAll_contains ps []⟩

/-- Hashable keys at the mapping input `{` `s 01 00 00 00 k` `{ 0` `g` and
the eight bytes of 2.0 `N` `0`, with a string key and a float key. -/
theorem readDict_hashable_keys_witness :
    (∃ n, ∀ fuel, n ≤ fuel → ∀ t : List Byte,
      Unmarshal fuel
          (CODE_DICT ::
            (wireBytes
                [WirePair.mk [0x73, 1, 0, 0, 0, 0x6b] (Value.str [0x6b])
                    [0x7b, 0x30] (Value.dict []),
                  WirePair.mk [0x67, 0, 0, 0, 0, 0, 0, 0, 0x40]
                    (Value.float64 4611686018427387904) [0x4e] Value.nil] ++
              CODE_STOP :: t)) =
        Outcome.ret
          (Value.dict
            [(Value.str [0x6b], Value.dict []),
              (Value.float64 4611686018427387904, Value.nil)])
          none t) ∧
    ∀ p ∈ [WirePair.mk [0x73, 1, 0, 0, 0, 0x6b] (Value.str [0x6b]) [0x7b, 0x30] (Value.dict []),
        WirePair.mk [0x67, 0, 0, 0, 0, 0, 0, 0, 0x40] (Value.float64 4611686018427387904)
          [0x4e] Value.nil],
      ∃ e ∈ [(Value.str [0x6b], Value.dict []), (Value.float64 4611686018427387904, Value.nil)],
        e.1 = p.key ∨ keyEq e.1 p.key = true :=
  readDict_hashable_keys
    [WirePair.mk [0x73, 1, 0, 0, 0, 0x6b] (Value.str [0x6b]) [0x7b, 0x30] (Value.dict []),
      WirePair.mk [0x67, 0, 0, 0, 0, 0, 0, 0, 0x40] (Value.float64 4611686018427387904)
        [0x4e] Value.nil]
    (fun p hp => by
      simp only [List.mem_cons, List.mem_singleton, List.not_mem_nil, or_false] at hp
      rcases hp with rfl | rfl
      · exact ⟨wellFormed_refEncode (Value.str [0x6b]) rfl,
          wellFormed_refEncode (Value.dict []) rfl⟩
      · exact ⟨wellFormed_refEncode (Value.float64 4611686018427387904) rfl,
          wellFormed_refEncode Value.nil rfl⟩)
    (fun p hp => by
      simp only [List.mem_cons, List.mem_singleton, List.not_mem_nil, or_false] at hp
      rcases hp with rfl | rfl <;> rfl)

/-! ## The dispatcher and the scalar decoders -/

/-- C11: for every tag byte other than `N`, `i`, `c`, `g`, `s`, `u`, `t`,
`(`, `[` and `{` and every source, `unmarshal` returns the error
`ERR_UNKNOWN_CODE` and the source is left as it was: no byte is read. -/
theorem unmarshal_unknown_code (fuel : Nat) (code : Byte) (r : Reader)
    (h : code ≠ CODE_NONE ∧ code ≠ CODE_INT ∧ code ≠ CODE_INT2 ∧ code ≠ CODE_FLOAT ∧
      code ≠ CODE_STRING ∧ code ≠ CODE_UNICODE ∧ code ≠ CODE_TSTRING ∧ code ≠ CODE_TUPLE ∧
      code ≠ CODE_LIST ∧ code ≠ CODE_DICT) :
    unmarshal (fuel + 1) code r = Outcome.ret Value.nil (some Error.ERR_UNKNOWN_CODE) r := by
  obtain ⟨h1, h2, h3, h4, h5, h6, h7, h8, h9, h10⟩ := h
  simp [unmarshal, h1, h2, h3, h4, h5, h6, h7, h8, h9, h10]

/-- C11 at the tag `'0'` and the source `01 02 03`. -/
theorem unmarshal_unknown_code_witness :
    unmarshal 1 0x30 [1, 2, 3] = Outcome.ret Value.nil (some Error.ERR_UNKNOWN_CODE) [1, 2, 3] :=
  unmarshal_unknown_code 0 0x30 [1, 2, 3] (by decide)

/-- C13: the tag `i` followed by four bytes `b0 b1 b2 b3` and any bytes `t`
decodes to the `int32` whose two's-complement value is
`b0 + 2^8 b1 + 2^16 b2 + 2^24 b3` and leaves exactly `t` unread; followed by
fewer than four bytes it returns an error (`io.EOF` when no byte follows,
`io.ErrUnexpectedEOF` otherwise). -/
theorem readInt32_little_endian (fuel : Nat) (b0 b1 b2 b3 : Byte) (t short : List Byte)
    (h0 : b0 < 256) (h1 : b1 < 256) (h2 : b2 < 256) (h3 : b3 < 256)
    (hs : short.length < 4) :
    Unmarshal (fuel + 1) (CODE_INT :: b0 :: b1 :: b2 :: b3 :: t) =
        Outcome.ret
          (Value.int32
            (if b0 + 256 * b1 + 65536 * b2 + 16777216 * b3 < 2147483648 then
              ((b0 + 256 * b1 + 65536 * b2 + 16777216 * b3 : Nat) : Int)
            else ((b0 + 256 * b1 + 65536 * b2 + 16777216 * b3 : Nat) : Int) - 4294967296))
          none t ∧
      Unmarshal (fuel + 1) (CODE_INT :: short) =
        Outcome.ret (Value.int32 0)
          (some (if short = [] then Error.EOF else Error.ErrUnexpectedEOF)) [] := by
  constructor
  · have hv := toInt32_leUint32 b0 b1 b2 b3 h0 h1 h2 h3
    rw [← hv]
    simp [Unmarshal, ReadByte, unmarshal, readInt32, binaryReadInt32, CODE_INT, CODE_NONE]
  · match short, hs with
    | [], _ =>
      simp [Unmarshal, ReadByte, unmarshal, readInt32, binaryReadInt32, CODE_INT, CODE_NONE]
    | [_], _ =>
      simp [Unmarshal, ReadByte, unmarshal, readInt32, binaryReadInt32, CODE_INT, CODE_NONE]
    | [_, _], _ =>
      simp [Unmarshal, ReadByte, unmarshal, readInt32, binaryReadInt32, CODE_INT, CODE_NONE]
    | [_, _, _], _ =>
      simp [Unmarshal, ReadByte, unmarshal, readInt32, binaryReadInt32, CODE_INT, CODE_NONE]
    | _ :: _ :: _ :: _ :: _, h => simp at h; omega

/-- C13 at `i 05 00 00 00`, which decodes to 5, and at `i ff ff`, which is
too short. -/
theorem readInt32_little_endian_witness :
    Unmarshal 1 [0x69, 5, 0, 0, 0] = Outcome.ret (Value.int32 5) none [] ∧
      Unmarshal 1 [0x69, 0xff, 0xff] =
        Outcome.ret (Value.int32 0) (some Error.ErrUnexpectedEOF) [] :=
  readInt32_little_endian 0 5 0 0 0 [] [0xff, 0xff] (by decide) (by decide) (by decide)
    (by decide) (by decide)

/-- C14: the tag `g` followed by eight bytes and any bytes `t` decodes to the
`float64` whose bit pattern is the little-endian value of the eight bytes and
leaves exactly `t` unread; followed by fewer than eight bytes it returns the
error `ERR_PARSE` with the zero value in the result slot, whatever the bytes
are. -/
theorem readFloat64_little_endian (fuel : Nat) (b0 b1 b2 b3 b4 b5 b6 b7 : Byte)
    (t short : List Byte)
    (h0 : b0 < 256) (h1 : b1 < 256) (h2 : b2 < 256) (h3 : b3 < 256)
    (h4 : b4 < 256) (h5 : b5 < 256) (h6 : b6 < 256) (h7 : b7 < 256)
    (hs : short.length < 8) :
    Unmarshal (fuel + 1) (CODE_FLOAT :: b0 :: b1 :: b2 :: b3 :: b4 :: b5 :: b6 :: b7 :: t) =
        Outcome.ret
          (Value.float64
            (b0 + 256 * b1 + 65536 * b2 + 16777216 * b3 + 4294967296 * b4 +
              1099511627776 * b5 + 281474976710656 * b6 + 72057594037927936 * b7))
          none t ∧
      Unmarshal (fuel + 1) (CODE_FLOAT :: short) =
        Outcome.ret (Value.float64 0) (some Error.ERR_PARSE) [] := by
  constructor
  · have hv := leUint64_bytes b0 b1 b2 b3 b4 b5 b6 b7 h0 h1 h2 h3 h4 h5 h6 h7
    rw [← hv]
    simp [Unmarshal, ReadByte, unmarshal, readFloat64, Read, CODE_FLOAT, CODE_NONE, CODE_INT,
      CODE_INT2]
  · have hd : List.drop 8 short = [] := List.drop_of_length_le (by omega)
    have hm : min 8 short.length ≠ 8 := by omega
    by_cases hn : short = []
    · subst hn
      simp [Unmarshal, ReadByte, unmarshal, readFloat64, Read, CODE_FLOAT, CODE_NONE, CODE_INT,
        CODE_INT2]
    · have hl : ¬ 8 ≤ short.length := by omega
      simp [Unmarshal, ReadByte, unmarshal, readFloat64, Read, CODE_FLOAT, CODE_NONE, CODE_INT,
        CODE_INT2, hn, hd, hl]

/-- C14 at `g` and the eight bytes of 2.0, and at `g 01 02 03`, which is too
short. -/
theorem readFloat64_little_endian_witness :
    Unmarshal 1 [0x67, 0, 0, 0, 0, 0, 0, 0, 0x40] =
        Outcome.ret (Value.float64 4611686018427387904) none [] ∧
      Unmarshal 1 [0x67, 1, 2, 3] = Outcome.ret (Value.float64 0) (some Error.ERR_PARSE) [] :=
  readFloat64_little_endian 0 0 0 0 0 0 0 0 0x40 [] [1, 2, 3] (by decide) (by decide)
    (by decide) (by decide) (by decide) (by decide) (by decide) (by decide) (by decide)

/-- C15: the tag `s` followed by the four little-endian bytes of a length
`L < 2^31`, a payload `p` of `L` bytes and any bytes `t` decodes without
error to the string `p`, byte for byte, and leaves exactly `t` unread. -/
theorem readString_exact (fuel : Nat) (p t : List Byte) (h : p.length < 2147483648) :
    Unmarshal (fuel + 1) (CODE_STRING :: (putInt32 p.length ++ (p ++ t))) =
      Outcome.ret (Value.str p) none t := by
  rw [Unmarshal_cons]
  exact unmarshal_str fuel p h t

/-- C15 at `s 03 00 00 00 a b c` followed by the byte `N`. -/
theorem readString_exact_witness :
    Unmarshal 1 [0x73, 3, 0, 0, 0, 0x61, 0x62, 0x63, 0x4e] =
      Outcome.ret (Value.str [0x61, 0x62, 0x63]) none [0x4e] :=
  readString_exact 0 [0x61, 0x62, 0x63] [0x4e] (by decide)

/-- C17: aliased tags decode identically. For every source, `unmarshal` gives
the same outcome (value, error and remaining source, or panic) on `i` and
`c`, on `s`, `u` and `t`, and on `(` and `[`. -/
theorem unmarshal_aliased_tags (fuel : Nat) (r : Reader) :
    unmarshal fuel CODE_INT r = unmarshal fuel CODE_INT2 r ∧
      unmarshal fuel CODE_STRING r = unmarshal fuel CODE_UNICODE r ∧
      unmarshal fuel CODE_UNICODE r = unmarshal fuel CODE_TSTRING r ∧
      unmarshal fuel CODE_TUPLE r = unmarshal fuel CODE_LIST r := by
  cases fuel with
  | zero => simp [unmarshal]
  | succ f =>
    simp [unmarshal, CODE_NONE, CODE_INT, CODE_INT2, CODE_FLOAT, CODE_STRING, CODE_UNICODE,
      CODE_TSTRING, CODE_TUPLE, CODE_LIST, CODE_DICT]

/-! ## Nesting, termination and the shape of the results -/

/-- C12: errors propagate through nesting. When the call of `unmarshal` that
`Unmarshal` makes on the first byte leads, through any number of nested
calls (elements of sequences, keys and values of mappings), to a call of
`unmarshal` that returns an error `e`, then `Unmarshal` returns that same
error `e` and leaves the source where the failing call left it: nothing
more is read and the error is neither replaced nor dropped. -/
theorem error_propagates (fuel : Nat) (c0 : Byte) (r0 : Reader) (f : Nat) (c : Byte)
    (r1 r2 : Reader) (v : Value) (e : Error)
    (hcall : Relation.ReflTransGen Calls (Frame.un fuel c0 r0) (Frame.un f c r1))
    (herr : unmarshal f c r1 = Outcome.ret v (some e) r2) :
    ∃ w, Unmarshal fuel (c0 :: r0) = Outcome.ret w (some e) r2 := by
  have hx : (Frame.un f c r1).failure = some (e, r2) := by simp [Frame.failure, herr]
  have h0 := failure_of_nested hcall hx
  rw [Unmarshal_cons]
  simp only [Frame.failure] at h0
  cases hu : unmarshal fuel c0 r0 with
  | outOfFuel => simp [hu] at h0
  | panic p => simp [hu] at h0
  | ret w e1 r3 =>
    cases e1 with
    | none => simp [hu] at h0
    | some e1 =>
      simp only [hu, Option.some.injEq, Prod.mk.injEq] at h0
      exact ⟨w, by rw [h0.1, h0.2]⟩

/-- C12 at `[` `01 00 00 00` `{` `i` `01 00`: the key of the mapping, the
only element of the sequence, is an integer cut after two bytes; the error
`io.ErrUnexpectedEOF` of that innermost call is the error of `Unmarshal`. -/
theorem error_propagates_witness :
    ∃ w, Unmarshal 8 [0x5b, 1, 0, 0, 0, 0x7b, 0x69, 1, 0] =
      Outcome.ret w (some Error.ErrUnexpectedEOF) [] :=
  error_propagates 8 0x5b [1, 0, 0, 0, 0x7b, 0x69, 1, 0] 2 0x69 [1, 0] [] (Value.int32 0)
    Error.ErrUnexpectedEOF
    ((((((Relation.ReflTransGen.refl.tail
      (Calls.un_list 7 0x5b [1, 0, 0, 0, 0x7b, 0x69, 1, 0] (Or.inr rfl))).tail
      (Calls.list_loop 6 [1, 0, 0, 0, 0x7b, 0x69, 1, 0] [0x7b, 0x69, 1, 0] 1 rfl
        (by decide))).tail
      (Calls.listLoop_elem 5 1 0 _ [0x7b, 0x69, 1, 0] [0x69, 1, 0] 0x7b (by decide) rfl)).tail
      (Calls.un_dict 4 0x7b [0x69, 1, 0] rfl)).tail
      (Calls.dict_loop 3 [0x69, 1, 0])).tail
      (Calls.dictLoop_key 2 [] [0x69, 1, 0] [1, 0] 0x69 rfl (by decide)))
    rfl

/-- C16: on the reference encoding of an encodable value `v` followed by any
bytes `t`, whenever `Unmarshal` returns it returns without error and the
unread remainder is exactly `t`; and with a large enough recursion bound it
does return so, unless it panics at a map assignment (a key that is a
sequence or a mapping). -/
theorem Unmarshal_reads_one_value (v : Value) (t : List Byte) (h : encodable v = true) :
    (∀ fuel w e r, Unmarshal fuel (refEncode v ++ t) = Outcome.ret w e r → e = none ∧ r = t) ∧
    ∃ n, ∀ fuel, n ≤ fuel →
      (∃ w, Unmarshal fuel (refEncode v ++ t) = Outcome.ret w none t) ∨
        Unmarshal fuel (refEncode v ++ t) = Outcome.panic Panic.unhashable := by
  rcases decodes_or_panics v h with ⟨w, n, hn⟩ | ⟨n, hn⟩
  · refine ⟨fun fuel w1 e r hr => ?_, n, fun fuel hf => Or.inl ⟨w, hn fuel hf t⟩⟩
    rcases Unmarshal_det (hn n le_rfl t) (by simp) fuel with h1 | h1 <;> rw [h1] at hr <;>
      simp at hr
    exact ⟨hr.2.1.symm, hr.2.2.symm⟩
  · refine ⟨fun fuel w1 e r hr => ?_, n, fun fuel hf => Or.inr (hn fuel hf t)⟩
    rcases Unmarshal_det (hn n le_rfl t) (by simp) fuel with h1 | h1 <;> rw [h1] at hr <;>
      simp at hr

/-- C16 at the sequence of the integer 5 and of the mapping from the string
`k` to the sequence of null, followed by the byte `N`. -/
theorem Unmarshal_reads_one_value_witness :
    (∀ fuel w e r,
      Unmarshal fuel
          (refEncode (Value.list [Value.int32 5,
            Value.dict [(Value.str [0x6b], Value.list [Value.nil])]]) ++ [0x4e]) =
        Outcome.ret w e r → e = none ∧ r = [0x4e]) ∧
    ∃ n, ∀ fuel, n ≤ fuel →
      (∃ w,
        Unmarshal fuel
            (refEncode (Value.list [Value.int32 5,
              Value.dict [(Value.str [0x6b], Value.list [Value.nil])]]) ++ [0x4e]) =
          Outcome.ret w none [0x4e]) ∨
        Unmarshal fuel
            (refEncode (Value.list [Value.int32 5,
              Value.dict [(Value.str [0x6b], Value.list [Value.nil])]]) ++ [0x4e]) =
          Outcome.panic Panic.unhashable :=
  Unmarshal_reads_one_value _ [0x4e] (by decide)

/-- C18: termination. On every finite source, whatever its length and count
fields hold, `Unmarshal` ends within a recursion bound of three units per
byte of the source: it returns or panics, and it never runs out. Every
return leaves a source that is no longer than the one given, and shorter
when the source was not empty: the tag byte is read first. -/
theorem Unmarshal_terminates (r : Reader) (fuel : Nat) (h : 3 * r.length ≤ fuel) :
    Unmarshal fuel r ≠ Outcome.outOfFuel ∧
      ∀ v e r1, Unmarshal fuel r = Outcome.ret v e r1 →
        r1.length ≤ r.length ∧ (r ≠ [] → r1.length < r.length) := by
  cases r with
  | nil =>
    refine ⟨by simp [Unmarshal, ReadByte], fun v e r1 hr => ?_⟩
    simp only [Unmarshal, ReadByte, Outcome.ret.injEq] at hr
    simp [← hr.2.2]
  | cons c r0 =>
    simp only [List.length_cons] at h
    rw [Unmarshal_cons]
    refine ⟨(fuel_suffices fuel).1 c r0 (by omega), fun v e r1 hr => ?_⟩
    have := (length_le fuel).1 c r0 v e r1 hr
    simp only [List.length_cons]
    exact ⟨by omega, fun _ => by omega⟩

/-- C18 at `[` `02 00 00 00` `{` `0` `N`, a source of eight bytes, with the
bound 24. -/
theorem Unmarshal_terminates_witness :
    Unmarshal 24 [0x5b, 2, 0, 0, 0, 0x7b, 0x30, 0x4e] ≠ Outcome.outOfFuel ∧
      ∀ v e r1, Unmarshal 24 [0x5b, 2, 0, 0, 0, 0x7b, 0x30, 0x4e] = Outcome.ret v e r1 →
        r1.length ≤ [0x5b, 2, 0, 0, 0, 0x7b, 0x30, 0x4e].length ∧
          ([0x5b, 2, 0, 0, 0, 0x7b, 0x30, 0x4e] ≠ [] →
            r1.length < [0x5b, 2, 0, 0, 0, 0x7b, 0x30, 0x4e].length) :=
  Unmarshal_terminates [0x5b, 2, 0, 0, 0, 0x7b, 0x30, 0x4e] 24 (by decide)

/-- C19: the shape of a decoded sequence. For a count `N < 2^31` followed by
`k ≤ N` well-formed elements, after which the loop stops (because `k = N`,
or because decoding what follows returns an error, the end of the source
included), `readList` returns the slice made of `N` nil entries followed by
the `k` decoded elements in wire order: its length is `N + k`, its first `N`
entries are nil and its entry `N + j` is the `j`-th decoded element. -/
theorem readList_shape (N : Nat) (segs : List (List Byte × Value)) (tail : List Byte)
    (hN : N < 2147483648) (hwf : ∀ e ∈ segs, WellFormed e.1 e.2) (hk : segs.length ≤ N)
    (hstop : segs.length = N ∨
      ∃ n, ∀ fuel, n ≤ fuel → ∃ v e r1, Unmarshal fuel tail = Outcome.ret v (some e) r1) :
    ∃ s : List Value,
      (∃ n, ∀ fuel, n ≤ fuel → ∃ e r1,
        readList fuel (putInt32 N ++ (elemBytes segs ++ tail)) = Outcome.ret s e r1) ∧
      s = List.replicate N Value.nil ++ segs.map Prod.snd ∧
      s.length = N + segs.length ∧
      (∀ i, i < N → s[i]? = some Value.nil) ∧
      (∀ j, j < segs.length → s[N + j]? = (segs.map Prod.snd)[j]?) := by
  refine ⟨List.replicate N Value.nil ++ segs.map Prod.snd, ?_, rfl, by simp, ?_, ?_⟩
  · obtain ⟨n1, h1⟩ := readListLoop_elems segs hwf
    by_cases hkN : segs.length = N
    · refine ⟨n1 + segs.length + 2, fun fuel hf => ⟨none, tail, ?_⟩⟩
      obtain ⟨f, rfl⟩ : ∃ f, fuel = (f + 1) + segs.length + 1 :=
        ⟨fuel - segs.length - 2, by omega⟩
      rw [readList_step _ N hN, h1 (f + 1) (by omega) N 0 _ tail (by omega)]
      exact readListLoop_done f N _ _ tail (by omega)
    · rcases hstop with hkN1 | ⟨n2, h2⟩
      · exact absurd hkN1 hkN
      · refine ⟨max n1 n2 + segs.length + 2, fun fuel hf => ?_⟩
        obtain ⟨f, rfl⟩ : ∃ f, fuel = (f + 1) + segs.length + 1 :=
          ⟨fuel - segs.length - 2, by omega⟩
        rw [readList_step _ N hN, h1 (f + 1) (by omega) N 0 _ tail (by omega)]
        obtain ⟨v, e, r1, hu⟩ := h2 f (by omega)
        have hlt : segs.length < N := by omega
        cases tail with
        | nil => exact ⟨none, [], by simp [readListLoop, hlt, ReadByte]⟩
        | cons c body =>
          rw [Unmarshal_cons] at hu
          exact ⟨some e, r1, by simp [readListLoop, hlt, ReadByte, hu]⟩
  · intro i hi
    rw [List.getElem?_append_left (by simpa using hi)]
    simp [List.getElem?_replicate, hi]
  · intro j _
    rw [List.getElem?_append_right (by simp)]
    simp

/-- C19 at the count 2 followed by the one element `i 07 00 00 00` and the
end of the source: `readList` returns the slice of two nil entries and the
integer 7. -/
theorem readList_shape_witness :
    ∃ s : List Value,
      (∃ n, ∀ fuel, n ≤ fuel → ∃ e r1,
        readList fuel [2, 0, 0, 0, 0x69, 7, 0, 0, 0] = Outcome.ret s e r1) ∧
      s = [Value.nil, Value.nil, Value.int32 7] ∧
      s.length = 2 + 1 ∧
      (∀ i, i < 2 → s[i]? = some Value.nil) ∧
      (∀ j, j < 1 → s[2 + j]? = [Value.int32 7][j]?) :=
  readList_shape 2 [([0x69, 7, 0, 0, 0], Value.int32 7)] [] (by decide)
    (fun e he => by
      simp only [List.mem_singleton] at he
      subst he
      exact wellFormed_refEncode (Value.int32 7) rfl)
    (by decide)
    (Or.inr ⟨0, fun _ _ => ⟨Value.nil, Error.EOF, [], rfl⟩⟩)

/-- C20: last write wins. On a well-formed mapping input whose keys are
scalars (null, integers, strings), `readDict` returns without error the map
of the pairs assigned in wire order, and in that map: the keys are exactly
the keys on the wire; an entry `(k, v)` is there exactly when `v` is the
value of the last pair with key `k` on the wire; no key occurs twice, and
the number of entries is the number of distinct keys on the wire. -/
theorem readDict_last_write_wins (ps : List WirePair)
    (hwf : ∀ p ∈ ps, WellFormed p.keyBytes p.key ∧ WellFormed p.valBytes p.val)
    (hs : ∀ p ∈ ps, scalarKey p.key = true) :
    (∃ n, ∀ fuel, n ≤ fuel → ∀ t : List Byte,
      readDict fuel (wireBytes ps ++ CODE_STOP :: t) =
        Outcome.ret (assignAll [] ps) none t) ∧
    (∀ k, k ∈ (assignAll [] ps).map Prod.fst ↔ k ∈ ps.map WirePair.key) ∧
    (∀ k v, (k, v) ∈ assignAll [] ps ↔
      ∃ pre q post, ps = pre ++ q :: post ∧ q.key = k ∧ q.val = v ∧
        ∀ x ∈ post, x.key ≠ k) ∧
    ((assignAll [] ps).map Prod.fst).Nodup ∧
    (assignAll [] ps).length = countDistinctKeys [] (ps.map WirePair.key) := by
  obtain ⟨n, hn⟩ := readDictLoop_wire ps hwf (fun p hp => hashable_of_scalarKey (hs p hp))
  obtain ⟨i1, i2, i3, i4⟩ := assignAll_scalar ps [] (fun e he => by cases he)
    List.nodup_nil hs
  refine ⟨⟨n + 1, fun fuel hf t => ?_⟩, fun k => ?_, fun k v => ?_, i1, ?_⟩
  · obtain ⟨f, rfl⟩ : ∃ f, fuel = f + 1 := ⟨fuel - 1, by omega⟩
    rw [readDict]
    exact hn f (by omega) [] t
  · simpa using i3 k
  · simpa using i2 k v
  · simpa using i4

/-- C20 at the mapping input `i 1` `i 10`, `s k` `N`, `i 1` `i 20`, `0`: the
map is `{1: 20, "k": nil}`, with two entries for the two distinct keys. -/
theorem readDict_last_write_wins_witness :
    (∃ n, ∀ fuel, n ≤ fuel → ∀ t : List Byte,
      readDict fuel
          ([0x69, 1, 0, 0, 0, 0x69, 10, 0, 0, 0, 0x73, 1, 0, 0, 0, 0x6b, 0x4e,
            0x69, 1, 0, 0, 0, 0x69, 20, 0, 0, 0] ++ CODE_STOP :: t) =
        Outcome.ret [(Value.int32 1, Value.int32 20), (Value.str [0x6b], Value.nil)] none t) ∧
    [(Value.int32 1, Value.int32 20), (Value.str [0x6b], Value.nil)].length =
      countDistinctKeys [] [Value.int32 1, Value.str [0x6b], Value.int32 1] :=
  ⟨(readDict_last_write_wins
      [WirePair.mk [0x69, 1, 0, 0, 0] (Value.int32 1) [0x69, 10, 0, 0, 0] (Value.int32 10),
        WirePair.mk [0x73, 1, 0, 0, 0, 0x6b] (Value.str [0x6b]) [0x4e] Value.nil,
        WirePair.mk [0x69, 1, 0, 0, 0] (Value.int32 1) [0x69, 20, 0, 0, 0] (Value.int32 20)]
      (fun p hp => by
        simp only [List.mem_cons, List.mem_singleton, List.not_mem_nil, or_false] at hp
        rcases hp with rfl | rfl | rfl
        · exact ⟨wellFormed_refEncode (Value.int32 1) rfl,
            wellFormed_refEncode (Value.int32 10) rfl⟩
        · exact ⟨wellFormed_refEncode (Value.str [0x6b]) rfl,
            wellFormed_refEncode Value.nil rfl⟩
        · exact ⟨wellFormed_refEncode (Value.int32 1) rfl,
            wellFormed_refEncode (Value.int32 20) rfl⟩)
      (fun p hp => by
        simp only [List.mem_cons, List.mem_singleton, List.not_mem_nil, or_false] at hp
        rcases hp with rfl | rfl | rfl <;> rfl)).1,
    rfl⟩

/-! ## The terminator of a mapping -/

/-- X1: the tag `'0'` at a key position ends the mapping: the loop of
`readDict` returns the map built so far with a nil error and leaves the
bytes after the tag unread. -/
theorem readDictLoop_stop_at_key (fuel : Nat) (ret : List (Value × Value))
    (rest : List Byte) :
    readDictLoop (fuel + 1) ret (CODE_STOP :: rest) = Outcome.ret ret none rest := by
  simp [readDictLoop, ReadByte]

/-- X2: the tag `'0'` is not accepted as the tag of a value: after a
well-formed key, `'0'` at the value position makes the loop of `readDict`
return the map built so far, without the key, and the error
`ERR_UNKNOWN_CODE`. -/
theorem readDictLoop_stop_at_value (kseg : List Byte) (k : Value) (hk : WellFormed kseg k) :
    ∃ n, ∀ fuel, n ≤ fuel → ∀ (ret : List (Value × Value)) (rest : List Byte),
      readDictLoop fuel ret (kseg ++ CODE_STOP :: rest) =
        Outcome.ret ret (some Error.ERR_UNKNOWN_CODE) rest := by
  obtain ⟨c, body, hseg, hc, n, hn⟩ := hk.uncons
  refine ⟨n + 2, fun fuel hf ret rest => ?_⟩
  obtain ⟨f, rfl⟩ : ∃ f, fuel = f + 2 := ⟨fuel - 2, by omega⟩
  have e1 := hn (f + 1) (by omega) (CODE_STOP :: rest)
  simp [readDictLoop, hseg, ReadByte, hc, e1, unmarshal_stop]

/-- X2 at the key `i 01 00 00 00`. -/
theorem readDictLoop_stop_at_value_witness :
    ∃ n, ∀ fuel, n ≤ fuel → ∀ (ret : List (Value × Value)) (rest : List Byte),
      readDictLoop fuel ret ([0x69, 1, 0, 0, 0] ++ CODE_STOP :: rest) =
        Outcome.ret ret (some Error.ERR_UNKNOWN_CODE) rest :=
  readDictLoop_stop_at_value [0x69, 1, 0, 0, 0] (Value.int32 1)
    (wellFormed_refEncode (Value.int32 1) rfl)

end Gopymarshal
